import Mathlib

/-!
Verification development for the ESIP "disasters-trusted-data-now" repository.

The repository consists of two Python scripts:
  * `scripts/ingest_google_forms.py` — fetches spreadsheet rows and reconciles
    them against the JSON record store (normalisation, column detection,
    type-token mapping, row validation, full-replace sync);
  * `scripts/check_accessibility.py` — probes record URLs concurrently and
    writes accessibility fields back onto the records.

This file gives a shallow embedding of the logic of both scripts.  Python
strings are modelled as lists of Unicode code points (`PyStr := List Nat`);
Python dicts holding the fixed record schema are modelled as structures with
`Option` fields for keys that may be absent.  Library calls made by the
scripts (`urllib.parse.urlsplit`, `parse_qsl`, `urlencode`, `urlunsplit`,
`re` patterns used, `str.strip`, `str.lower`, percent and UTF-8 coding) are embedded
faithfully following CPython's implementation, at the level of detail the
scripts exercise; the embedding is total, so code paths on which CPython
would raise (e.g. `ValueError` for malformed IPv6 netlocs, which would abort
the whole script) and full-Unicode case mapping / NFKC checking (the scripts
only ever branch on ASCII) are outside the model and noted where they occur.
-/

namespace TDN


/-- Python `str` modelled as the list of its Unicode code points. -/
abbrev PyStr := List Nat

/-- Embed a Lean string literal as a `PyStr` (used to write concrete inputs). -/
def py (s : String) : PyStr := s.data.map Char.toNat

/-- The whitespace characters of Python `str.isspace()` — exactly the set
stripped by `str.strip()` (no argument), split on by `str.split()`, and
matched by `\s` in `re` patterns over `str`: the ASCII controls `09`–`0D`,
the separators `1C`–`1F`, the space `20`, and the Unicode spaces NEL, NBSP,
U+1680, U+2000–U+200A, U+2028, U+2029, U+202F, U+205F and U+3000. -/
def pyIsSpace (c : Nat) : Bool :=
  (9 ≤ c && c ≤ 13) || (28 ≤ c && c ≤ 32) || c == 0x85 || c == 0xA0 ||
  c == 0x1680 || (0x2000 ≤ c && c ≤ 0x200A) || c == 0x2028 || c == 0x2029 ||
  c == 0x202F || c == 0x205F || c == 0x3000

/-- Python `str.strip()` with no argument. -/
def pyStrip (s : PyStr) : PyStr :=
  ((s.dropWhile pyIsSpace).reverse.dropWhile pyIsSpace).reverse

/-- ASCII lower-casing of one code point, as `str.lower()` acts on ASCII
(the scripts compare only against ASCII strings). -/
def lowerChar (c : Nat) : Nat := if 65 ≤ c ∧ c ≤ 90 then c + 32 else c

/-- Python `str.lower()`. -/
def pyLower (s : PyStr) : PyStr := s.map lowerChar

def isAsciiDigit (c : Nat) : Bool := 48 ≤ c && c ≤ 57

def isAsciiAlpha (c : Nat) : Bool := (65 ≤ c && c ≤ 90) || (97 ≤ c && c ≤ 122)

def isAsciiAlnum (c : Nat) : Bool := isAsciiDigit c || isAsciiAlpha c

/-! ## `urllib.parse` embedding

`normalize_url` in `ingest_google_forms.py` is built from `urlsplit`,
`parse_qsl`, `urlencode` and `urlunsplit`.  The following definitions embed
those CPython functions (3.10+ semantics: `\t`, `\r`, `\n` removed by
`urlsplit`; `parse_qsl` splits on `&` only). -/

/-- `urllib.parse.scheme_chars`. -/
def isSchemeChar (c : Nat) : Bool := isAsciiAlnum c || c == 43 || c == 45 || c == 46

/-- `urlsplit` removes the unsafe bytes tab, CR, LF anywhere in the URL. -/
def removeUnsafe (s : PyStr) : PyStr := s.filter (fun c => !(c == 9 || c == 10 || c == 13))

/-- `urlsplit` first lstrips WHATWG C0-control-or-space characters
(code points `0x00`–`0x20`). -/
def lstripC0 (s : PyStr) : PyStr := s.dropWhile (· ≤ 32)

/-- The scheme-recognition test of `urlsplit`: there is a `:` at index
`i > 0`, `url[0]` is an ASCII letter and `url[1:i]` consists of scheme
characters. -/
def schemeAccept (url : PyStr) : Bool :=
  let pre := url.takeWhile (· != 58)
  decide (pre.length < url.length) &&
    (match pre with
     | [] => false
     | c :: cs => isAsciiAlpha c && cs.all isSchemeChar)

/-- Split off the (lower-cased) scheme, per `urlsplit`. -/
def schemeSplit (url : PyStr) : PyStr × PyStr :=
  if schemeAccept url then
    (pyLower (url.takeWhile (· != 58)), (url.dropWhile (· != 58)).tail)
  else ([], url)

/-- `_splitnetloc` stops at the first of `/`, `?`, `#`. -/
def notDelim (c : Nat) : Bool := c != 47 && c != 63 && c != 35

/-- Result record of `urlsplit`. -/
structure SplitResult where
  scheme : PyStr
  netloc : PyStr
  path : PyStr
  query : PyStr
  frag : PyStr
deriving Repr, DecidableEq

/-- The netloc step of `urlsplit`: when the rest starts with `//`, the
netloc runs to the first of `/`, `?`, `#` (`_splitnetloc`). -/
def netlocSplit (r1 : PyStr) : PyStr × PyStr :=
  if r1.take 2 = [47, 47] then
    ((r1.drop 2).takeWhile notDelim, (r1.drop 2).dropWhile notDelim)
  else ([], r1)

/-- `if '#' in url: url, fragment = url.split('#', 1)`. -/
def fragSplit (r2 : PyStr) : PyStr × PyStr :=
  if r2.contains 35 then (r2.takeWhile (· != 35), (r2.dropWhile (· != 35)).tail)
  else (r2, [])

/-- `if '?' in url: url, query = url.split('?', 1)`. -/
def querySplit (r3 : PyStr) : PyStr × PyStr :=
  if r3.contains 63 then (r3.takeWhile (· != 63), (r3.dropWhile (· != 63)).tail)
  else (r3, [])

/-- `urllib.parse.urlsplit` (with `allow_fragments=True`).  The `ValueError`
raised for unbalanced IPv6 brackets and the NFKC netloc check — both of which
would abort the script rather than return — are outside the model. -/
def pyUrlsplit (url0 : PyStr) : SplitResult :=
  let url := removeUnsafe (lstripC0 url0)
  ⟨(schemeSplit url).1,
   (netlocSplit (schemeSplit url).2).1,
   (querySplit (fragSplit (netlocSplit (schemeSplit url).2).2).1).1,
   (querySplit (fragSplit (netlocSplit (schemeSplit url).2).2).1).2,
   (fragSplit (netlocSplit (schemeSplit url).2).2).2⟩

/-- `urllib.parse.uses_netloc` (non-empty entries; the `''` entry can never
pass `urlunsplit`'s `scheme and …` truthiness test). -/
def usesNetloc (s : PyStr) : Bool :=
  [py "ftp", py "http", py "gopher", py "nntp", py "telnet", py "imap",
   py "wais", py "file", py "mms", py "https", py "shttp", py "snews",
   py "prospero", py "rtsp", py "rtsps", py "rtspu", py "rsync", py "svn",
   py "svn+ssh", py "sftp", py "nfs", py "git", py "git+ssh", py "ws",
   py "wss"].contains s

/-- `urllib.parse.urlunsplit`. -/
def pyUrlunsplit (scheme netloc path query frag : PyStr) : PyStr :=
  let url := if netloc ≠ [] ∨ (scheme ≠ [] ∧ usesNetloc scheme ∧ path.take 2 ≠ [47, 47]) then
      [47, 47] ++ netloc ++
        (match path with
         | [] => []
         | c :: cs => if c ≠ 47 then 47 :: c :: cs else c :: cs)
    else path
  let url := if scheme ≠ [] then scheme ++ 58 :: url else url
  let url := if query ≠ [] then url ++ 63 :: query else url
  if frag ≠ [] then url ++ 35 :: frag else url

/-! ### Percent- and UTF-8 coding (for `parse_qsl` / `urlencode`) -/

/-- UTF-8 encoding of one code point. -/
def utf8EncChar (n : Nat) : List Nat :=
  if n < 0x80 then [n]
  else if n < 0x800 then [0xC0 + n / 64, 0x80 + n % 64]
  else if n < 0x10000 then [0xE0 + n / 4096, 0x80 + (n / 64) % 64, 0x80 + n % 64]
  else [0xF0 + n / 262144, 0x80 + (n / 4096) % 64, 0x80 + (n / 64) % 64, 0x80 + n % 64]

/-- UTF-8 encoding of a string (byte list). -/
def utf8Encode (s : PyStr) : List Nat := s.foldr (fun c acc => utf8EncChar c ++ acc) []

def isCont (b : Nat) : Bool := 0x80 ≤ b && b ≤ 0xBF

/-- Admissible first continuation byte after a 3-byte lead (rules out
overlong forms after `E0` and surrogates after `ED`). -/
def cont3Ok (b b1 : Nat) : Bool :=
  if b = 0xE0 then 0xA0 ≤ b1 && b1 ≤ 0xBF
  else if b = 0xED then 0x80 ≤ b1 && b1 ≤ 0x9F
  else isCont b1

/-- Admissible first continuation byte after a 4-byte lead (rules out
overlong forms after `F0` and > U+10FFFF after `F4`). -/
def cont4Ok (b b1 : Nat) : Bool :=
  if b = 0xF0 then 0x90 ≤ b1 && b1 ≤ 0xBF
  else if b = 0xF4 then 0x80 ≤ b1 && b1 ≤ 0x8F
  else isCont b1

/-- Strict UTF-8 decoding with U+FFFD replacement of invalid sequences,
one replacement per maximal subpart (CPython
`bytes.decode('utf-8', errors='replace')`).  The list is matched by shape
first so that every branch is a plain conditional. -/
def utf8Decode : List Nat → List Nat
  | [] => []
  | [b] => if b < 0x80 then [b] else [0xFFFD]
  | [b, b1] =>
    if b < 0x80 then b :: utf8Decode [b1]
    else if 0xC2 ≤ b ∧ b ≤ 0xDF then
      if isCont b1 then [(b - 0xC0) * 64 + (b1 - 0x80)] else 0xFFFD :: utf8Decode [b1]
    else if 0xE0 ≤ b ∧ b ≤ 0xEF then
      if cont3Ok b b1 then [0xFFFD] else 0xFFFD :: utf8Decode [b1]
    else if 0xF0 ≤ b ∧ b ≤ 0xF4 then
      if cont4Ok b b1 then [0xFFFD] else 0xFFFD :: utf8Decode [b1]
    else 0xFFFD :: utf8Decode [b1]
  | [b, b1, b2] =>
    if b < 0x80 then b :: utf8Decode [b1, b2]
    else if 0xC2 ≤ b ∧ b ≤ 0xDF then
      if isCont b1 then ((b - 0xC0) * 64 + (b1 - 0x80)) :: utf8Decode [b2]
      else 0xFFFD :: utf8Decode [b1, b2]
    else if 0xE0 ≤ b ∧ b ≤ 0xEF then
      if cont3Ok b b1 then
        if isCont b2 then [(b - 0xE0) * 4096 + (b1 - 0x80) * 64 + (b2 - 0x80)]
        else 0xFFFD :: utf8Decode [b2]
      else 0xFFFD :: utf8Decode [b1, b2]
    else if 0xF0 ≤ b ∧ b ≤ 0xF4 then
      if cont4Ok b b1 then
        if isCont b2 then [0xFFFD] else 0xFFFD :: utf8Decode [b2]
      else 0xFFFD :: utf8Decode [b1, b2]
    else 0xFFFD :: utf8Decode [b1, b2]
  | b :: b1 :: b2 :: b3 :: bs =>
    if b < 0x80 then b :: utf8Decode (b1 :: b2 :: b3 :: bs)
    else if 0xC2 ≤ b ∧ b ≤ 0xDF then
      if isCont b1 then ((b - 0xC0) * 64 + (b1 - 0x80)) :: utf8Decode (b2 :: b3 :: bs)
      else 0xFFFD :: utf8Decode (b1 :: b2 :: b3 :: bs)
    else if 0xE0 ≤ b ∧ b ≤ 0xEF then
      if cont3Ok b b1 then
        if isCont b2 then
          ((b - 0xE0) * 4096 + (b1 - 0x80) * 64 + (b2 - 0x80)) :: utf8Decode (b3 :: bs)
        else 0xFFFD :: utf8Decode (b2 :: b3 :: bs)
      else 0xFFFD :: utf8Decode (b1 :: b2 :: b3 :: bs)
    else if 0xF0 ≤ b ∧ b ≤ 0xF4 then
      if cont4Ok b b1 then
        if isCont b2 then
          if isCont b3 then
            ((b - 0xF0) * 262144 + (b1 - 0x80) * 4096 + (b2 - 0x80) * 64 + (b3 - 0x80))
              :: utf8Decode bs
          else 0xFFFD :: utf8Decode (b3 :: bs)
        else 0xFFFD :: utf8Decode (b2 :: b3 :: bs)
      else 0xFFFD :: utf8Decode (b1 :: b2 :: b3 :: bs)
    else 0xFFFD :: utf8Decode (b1 :: b2 :: b3 :: bs)

def isHexDigit (c : Nat) : Bool :=
  isAsciiDigit c || (65 ≤ c && c ≤ 70) || (97 ≤ c && c ≤ 102)

def hexVal (c : Nat) : Nat :=
  if c ≤ 57 then c - 48 else if c ≤ 70 then c - 55 else c - 87

/-- `unquote_to_bytes`: `%XX` (hex, either case) becomes a byte; everything
else stands for its own byte.  (Applies to ASCII runs only, see below.) -/
def percentBytes : List Nat → List Nat
  | [] => []
  | 37 :: a :: b :: rest =>
    if isHexDigit a && isHexDigit b then (hexVal a * 16 + hexVal b) :: percentBytes rest
    else 37 :: percentBytes (a :: b :: rest)
  | 37 :: rest => 37 :: percentBytes rest
  | c :: rest => c :: percentBytes rest

/-- Kernel of `unquote`: accumulate the current maximal ASCII run (in
reverse); on a non-ASCII character or at the end, percent-decode the run to
bytes and UTF-8-decode it; non-ASCII characters pass through unchanged. -/
def unquoteGo (run : List Nat) : List Nat → List Nat
  | [] => utf8Decode (percentBytes run.reverse)
  | c :: rest =>
    if c < 0x80 then unquoteGo (c :: run) rest
    else utf8Decode (percentBytes run.reverse) ++ c :: unquoteGo [] rest

/-- `urllib.parse.unquote` (str form): the string is cut into maximal ASCII
runs; each run is percent-decoded to bytes and UTF-8-decoded with
replacement; non-ASCII characters pass through unchanged. -/
def pyUnquote (s : PyStr) : PyStr := unquoteGo [] s

/-- `.replace('+', ' ')` as applied by `parse_qsl` before unquoting. -/
def plusToSpace (s : PyStr) : PyStr := s.map (fun c => if c = 43 then 32 else c)

def unqPlus (s : PyStr) : PyStr := pyUnquote (plusToSpace s)

/-- Split a list at every occurrence of `sep` (Python `str.split(sep)`):
`splitSep 38 "a&b" = ["a","b"]`, `splitSep 38 "" = [""]`. -/
def splitSep (sep : Nat) : List Nat → List (List Nat)
  | [] => [[]]
  | c :: rest =>
    if c = sep then [] :: splitSep sep rest
    else
      match splitSep sep rest with
      | [] => [[c]]
      | p :: ps => (c :: p) :: ps

/-- `urllib.parse.parse_qsl(qs, keep_blank_values=True)` (3.10+: separator
`&` only; empty fields skipped; a field with no `=` keeps a blank value). -/
def parseQsl (qs : PyStr) : List (PyStr × PyStr) :=
  (if qs = [] then [] else splitSep 38 qs).filterMap fun seg =>
    if seg = [] then none
    else if seg.contains 61 then
      some (unqPlus (seg.takeWhile (· != 61)), unqPlus ((seg.dropWhile (· != 61)).tail))
    else some (unqPlus seg, unqPlus [])

/-- Bytes kept verbatim by `quote` (`_ALWAYS_SAFE`, with `safe=''`). -/
def isSafeByte (b : Nat) : Bool :=
  isAsciiAlnum b || b == 95 || b == 46 || b == 45 || b == 126

def hexUp (n : Nat) : Nat := if n < 10 then 48 + n else 55 + n

/-- The encoding of one byte under `quote(·, safe='')` followed by the
space-to-plus substitution of `quote_plus`. -/
def quoteByte (b : Nat) : List Nat :=
  if isSafeByte b then [b]
  else if b = 32 then [43]
  else [37, hexUp (b / 16), hexUp (b % 16)]

/-- `urllib.parse.quote_plus(s, safe='')`: UTF-8 bytes, safe bytes kept,
space becomes `+`, the rest `%XX` with upper-case hex. -/
def quotePlus (s : PyStr) : PyStr :=
  (utf8Encode s).foldr (fun b acc => quoteByte b ++ acc) []

/-- `'&'.join l` for a list of pieces. -/
def joinAmp : List PyStr → PyStr
  | [] => []
  | [p] => p
  | p :: q :: rest => p ++ 38 :: joinAmp (q :: rest)

/-- `urllib.parse.urlencode` on a list of string pairs (default
`quote_via=quote_plus`). -/
def urlencodePairs (q : List (PyStr × PyStr)) : PyStr :=
  joinAmp (q.map fun kv => quotePlus kv.1 ++ 61 :: quotePlus kv.2)

/-! ### `normalize_url` itself -/

/-- `norm` from the script: `(s or "").strip()`. -/
def norm (s : PyStr) : PyStr := pyStrip s

/-- Strip exactly one trailing slash unless the path is exactly `/`
(`parts.path[:-1] if parts.path.endswith("/") and parts.path != "/" else parts.path`). -/
def stripSlash (p : PyStr) : PyStr :=
  if p.getLast? = some 47 ∧ p ≠ [47] then p.dropLast else p

/-- Keep a query pair unless its key lower-cases to something starting with
`utm_`. -/
def utmKeep (kv : PyStr × PyStr) : Bool := !((py "utm_").isPrefixOf (pyLower kv.1))

/-- `normalize_url` from `scripts/ingest_google_forms.py`:
lower-case scheme/host, drop `utm_*` params, trim one trailing slash,
drop the fragment. -/
def normalize_url (u : PyStr) : PyStr :=
  let u := norm u
  if u = [] then u
  else
    let parts := pyUrlsplit u
    let scheme := pyLower parts.scheme
    let netloc := pyLower parts.netloc
    let path := stripSlash parts.path
    let q := (parseQsl parts.query).filter utmKeep
    pyUrlunsplit scheme netloc path (urlencodePairs q) []

/-! ## Ingest-script helpers: `to_bool`, `detect_column`, `split_multi`,
`normalize_type_token` -/

/-- The strings `to_bool` maps to `True`. -/
def trueStrings : List PyStr :=
  [py "true", py "yes", py "y", py "1", py "on", py "checked"]

/-- The strings `to_bool` maps to `False` — note that the empty string is
among them. -/
def falseStrings : List PyStr :=
  [py "false", py "no", py "n", py "0", py "off", py "unchecked", py ""]

/-- `to_bool` from the script (`val` is `None` or a string). -/
def to_bool (val : Option PyStr) (dflt : Bool) : Bool :=
  match val with
  | none => dflt
  | some v =>
    let s := pyLower (pyStrip v)
    if trueStrings.contains s then true
    else if falseStrings.contains s then false
    else dflt

def isLowerAlnum (c : Nat) : Bool := isAsciiDigit c || (97 ≤ c && c ≤ 122)

/-- State machine for `re.sub(r'[^a-z0-9]+', ' ', ·)`: `inRun` records
whether we are inside a run of replaced characters (a run emits one space
when entered). -/
def collapseGo (inRun : Bool) : List Nat → List Nat
  | [] => []
  | c :: rest =>
    if isLowerAlnum c then c :: collapseGo false rest
    else if inRun then collapseGo true rest
    else 32 :: collapseGo true rest

/-- `re.sub(r'[^a-z0-9]+', ' ', ·)`: replace every run of characters outside
`[a-z0-9]` by a single space. -/
def collapseNonAlnum (s : List Nat) : List Nat := collapseGo false s

/-- State machine for `str.split()`: `cur` is the current word, reversed. -/
def splitWsGo (cur : List Nat) : List Nat → List (List Nat)
  | [] => if cur = [] then [] else [cur.reverse]
  | c :: rest =>
    if pyIsSpace c then
      if cur = [] then splitWsGo [] rest else cur.reverse :: splitWsGo [] rest
    else splitWsGo (c :: cur) rest

/-- `str.split()` with no argument: split on whitespace runs, no empties. -/
def pySplitWs (s : List Nat) : List (List Nat) := splitWsGo [] s

/-- The cleaned key of a header: `re.sub(r'[^a-z0-9]+',' ', h.lower()).strip()`. -/
def cleanHeader (h : PyStr) : PyStr := pyStrip (collapseNonAlnum (pyLower h))

/-- One candidate test inside `detect_column`:
`key == cand or key.startswith(cand) or cand in key.split()`. -/
def headerMatch (h cand : PyStr) : Bool :=
  let key := cleanHeader h
  key == cand || cand.isPrefixOf key || (pySplitWs key).contains cand

/-- `detect_column(headers, *candidates)`: index of the first header matching
any candidate, else `None`. -/
def detect_column (headers : List PyStr) (cands : List PyStr) : Option Nat :=
  headers.findIdx? (fun h => cands.any (fun cand => headerMatch h cand))

def isTypeDelim (c : Nat) : Bool := c == 44 || c == 10 || c == 59

/-- Split a list at every element satisfying `p` (single occurrences;
`splitOnP p "" = [""]`). -/
def splitOnP (p : Nat → Bool) : List Nat → List (List Nat)
  | [] => [[]]
  | c :: rest =>
    if p c then [] :: splitOnP p rest
    else
      match splitOnP p rest with
      | [] => [[c]]
      | q :: qs => (c :: q) :: qs

/-- `split_multi`: `re.split(r'[,\n;]+', s)` then strip pieces and drop
empties.  (Splitting on single delimiters instead of runs yields the same
result after empty pieces are dropped.) -/
def split_multi (s : PyStr) : List PyStr :=
  if s = [] then []
  else ((splitOnP isTypeDelim s).map pyStrip).filter (· ≠ [])

/-- `t.replace("–","-").replace("—","-")` (en/em dash to hyphen). -/
def dashFix (s : PyStr) : PyStr :=
  s.map (fun c => if c = 0x2013 ∨ c = 0x2014 then 45 else c)

/-- The alias table of `normalize_type_token` (`dict.get t t`). -/
def aliasLookup (t : PyStr) : PyStr :=
  (([(py "flood", py "flood"), (py "earthquake", py "earthquake"),
     (py "wildfire", py "wildfire"), (py "drought", py "drought"),
     (py "hurricane", py "hurricane"), (py "tornado", py "tornado"),
     (py "extreme weather", py "extreme-weather"), (py "other", py "other"),
     (py "wildfires", py "wildfire"), (py "flooding", py "flood"),
     (py "hurricanes", py "hurricane"), (py "tornados", py "tornado"),
     (py "tornadoes", py "tornado"), (py "earthquakes", py "earthquake"),
     (py "droughts", py "drought")] : List (PyStr × PyStr)).lookup t).getD t

/-- `normalize_type_token`: lower-case, fix dashes, peel an `other:` prefix
(regex `^other:\s*(.+)$`: the match succeeds when something non-blank follows
the six-character prefix, `\s*` eats the leading whitespace of the remainder
and the captured group is then stripped again, so the text is
`t[6:].strip()`; labels reaching this function never contain a newline,
having been produced by `split_multi`), then the alias table. -/
def normalize_type_token (label : PyStr) : PyStr × Option PyStr :=
  let t := dashFix (pyLower (pyStrip label))
  if (py "other:").isPrefixOf t ∧ pyStrip (t.drop 6) ≠ [] then
    (aliasLookup (py "other"), some (pyStrip (t.drop 6)))
  else (aliasLookup t, none)

/-- `ALLOWED_TYPES`. -/
def ALLOWED_TYPES : List PyStr :=
  [py "flood", py "earthquake", py "wildfire", py "drought", py "hurricane",
   py "tornado", py "extreme-weather", py "other"]

/-- First-seen-order deduplication
(`[t for t in l if not (t in seen or seen.add(t))]`). -/
def dedupFirst (l : List PyStr) : List PyStr :=
  l.foldl (fun acc t => if acc.contains t then acc else acc ++ [t]) []

/-- Lexicographic code-point comparison (Python `str <`). -/
def lexLt : List Nat → List Nat → Bool
  | [], [] => false
  | [], _ :: _ => true
  | _ :: _, [] => false
  | a :: as, b :: bs => decide (a < b) || (a == b && lexLt as bs)

def insertSorted (x : PyStr) : List PyStr → List PyStr
  | [] => [x]
  | y :: ys => if lexLt x y then x :: y :: ys else y :: insertSorted x ys

/-- Python `sorted(set(l))` for strings: unique elements in ascending
lexicographic order. -/
def sortedUnique (l : List PyStr) : List PyStr :=
  (dedupFirst l).foldr insertSorted []

def joinWith (sep : PyStr) : List PyStr → PyStr
  | [] => []
  | [p] => p
  | p :: q :: rest => p ++ sep ++ joinWith sep (q :: rest)

/-! ## The record schema and the per-row pipeline of `main` -/

/-- The shape-varying `type` value: a single token or a list of tokens. -/
inductive TypeField where
  | single (t : PyStr)
  | multi (ts : List PyStr)
deriving DecidableEq, Repr

/-- One resource record (one JSON object of `data.json`).  `Option` fields
model keys that may be absent from the dict; string keys read through
`r.get(k, "")` are plain `PyStr` (absent and `""` are indistinguishable to
both scripts). -/
structure Res where
  name : PyStr := []
  description : PyStr := []
  url : PyStr := []
  organization : PyStr := []
  contact : PyStr := []
  contributorName : PyStr := []
  contributorEmail : PyStr := []
  notes : PyStr := []
  subscription : Bool := false
  researchOrOps : PyStr := []
  public : Bool := true
  active : Bool := true
  type : Option TypeField := none
  accessible : Option Bool := none
  lastChecked : Option PyStr := none
  accessibilityStatus : Option Int := none
  accessibilityError : Option PyStr := none
deriving DecidableEq, Repr

/-- The header→index map computed in `main` (one `detect_column` call per
logical field, with the candidate lists from the script). -/
structure IdxMap where
  name : Option Nat := none
  description : Option Nat := none
  types : Option Nat := none
  url : Option Nat := none
  organization : Option Nat := none
  contact : Option Nat := none
  contributorName : Option Nat := none
  contributorEmail : Option Nat := none
  notes : Option Nat := none
  subscription : Option Nat := none
  researchOrOps : Option Nat := none
  public : Option Nat := none
  active : Option Nat := none
deriving DecidableEq, Repr

def buildIdx (headers : List PyStr) : IdxMap where
  name := detect_column headers [py "data name", py "name", py "resource name"]
  description := detect_column headers [py "description"]
  types := detect_column headers [py "type", py "types"]
  url := detect_column headers [py "url", py "link"]
  organization := detect_column headers [py "organization", py "org"]
  contact := detect_column headers [py "contact", py "email"]
  contributorName := detect_column headers [py "contributor name", py "contributor"]
  contributorEmail := detect_column headers [py "contributor email", py "contributor email"]
  notes := detect_column headers [py "notes", py "note"]
  subscription := detect_column headers [py "requires subscription", py "subscription"]
  researchOrOps :=
    detect_column headers [py "use case", py "usecase", py "research or ops", py "researchorops"]
  public := detect_column headers [py "publicly available", py "public"]
  active := detect_column headers [py "currently active", py "active"]

/-- `cell(ix)` inside the row loop:
`norm(r[ix]) if ix is not None and ix < len(r) else ""`. -/
def cell (r : List PyStr) (ix : Option Nat) : PyStr :=
  match ix with
  | some i => if i < r.length then norm (r.getD i []) else []
  | none => []

/-- The type-cell pipeline of the row loop: split the cell, normalise each
label, collect `other` texts, keep allowed tokens, deduplicate.
Returns `(types_final, other_texts)`. -/
def typeTokens (s : PyStr) : List PyStr × List PyStr :=
  let pairs := (split_multi s).map normalize_type_token
  (dedupFirst ((pairs.map (·.1)).filter (fun t => ALLOWED_TYPES.contains t)),
   pairs.filterMap (·.2))

/-- The `res = {...}` dict literal of the row loop (`researchOrOps` uses
`cell(...) or ""`, the identity on strings whose falsy value is `""`). -/
def extractRes (idx : IdxMap) (r : List PyStr) : Res where
  name := cell r idx.name
  description := cell r idx.description
  url := cell r idx.url
  organization := cell r idx.organization
  contact := cell r idx.contact
  contributorName := cell r idx.contributorName
  contributorEmail := cell r idx.contributorEmail
  notes := cell r idx.notes
  subscription := to_bool (some (cell r idx.subscription)) false
  researchOrOps := cell r idx.researchOrOps
  public := to_bool (some (cell r idx.public)) true
  active := to_bool (some (cell r idx.active)) true

/-- `"Other type(s): " + ", ".join(sorted(set(other_texts)))`. -/
def otherNote (otherTexts : List PyStr) : PyStr :=
  py "Other type(s): " ++ joinWith [44, 32] (sortedUnique otherTexts)

/-- The notes-append side effect when some `Other: …` text was captured. -/
def notesWithOther (notes : PyStr) (otherTexts : List PyStr) : PyStr :=
  if otherTexts = [] then notes
  else pyStrip (notes ++ (if notes ≠ [] then py " | " else []) ++ otherNote otherTexts)

/-- The rejection reasons collected for one row, in the order the script
appends them. -/
def rowReasons (idx : IdxMap) (r : List PyStr) : List PyStr :=
  (if (extractRes idx r).name = [] then [py "missing name"] else []) ++
  (if (extractRes idx r).description = [] then [py "missing description"] else []) ++
  (if (extractRes idx r).url = [] then [py "missing url"] else []) ++
  (if (typeTokens (cell r idx.types)).1 = [] then [py "no valid types"] else []) ++
  (if normalize_url (extractRes idx r).url = [] then [py "bad url"] else [])

/-- One iteration of the row loop up to validation: either the rejection
reasons (row skipped) or the finalised candidate record, with `type`
attached (list iff more than one token), notes appended, and the `url`
field replaced by the normalised URL. -/
def processRow (idx : IdxMap) (r : List PyStr) : Except (List PyStr) Res :=
  if rowReasons idx r ≠ [] then .error (rowReasons idx r)
  else .ok { extractRes idx r with
    type := some (if (typeTokens (cell r idx.types)).1.length > 1
                  then .multi (typeTokens (cell r idx.types)).1
                  else .single ((typeTokens (cell r idx.types)).1.headD []))
    notes := notesWithOther (extractRes idx r).notes (typeTokens (cell r idx.types)).2
    url := normalize_url (extractRes idx r).url }

/-! ## The reconciliation pass of `main` -/

/-- The insertion sequence of `existing_by_url`
(`u = normalize_url(r.get("url","")); if u: existing_by_url[u] = r`). -/
def idxEntries (data : List Res) : List (PyStr × Res) :=
  data.filterMap fun r =>
    let u := normalize_url r.url
    if u = [] then none else some (u, r)

/-- Dict lookup: the last insertion for a key wins. -/
def lookupIdx (data : List Res) (u : PyStr) : Option Res :=
  ((idxEntries data).reverse).lookup u

/-- The key set of `existing_by_url` (insertion order, each key once). -/
def idxKeys (data : List Res) : List PyStr :=
  dedupFirst ((idxEntries data).map (·.1))

/-- Copy the four accessibility fields forward from the existing record.
In the script each is copied under an `if key in existing_res` guard onto a
fresh `res` that never carries these keys, so the result holds exactly the
existing record's optional values. -/
def mergeAccess (res ex : Res) : Res :=
  { res with
    accessible := ex.accessible
    lastChecked := ex.lastChecked
    accessibilityStatus := ex.accessibilityStatus
    accessibilityError := ex.accessibilityError }

/-- What the loop body emits for one validated candidate. -/
def emitFor (data : List Res) (res : Res) : Res :=
  match lookupIdx data res.url with
  | some ex => mergeAccess res ex
  | none => res

/-- The mutable state of the row loop (`added`, `updated`, `skipped`,
`new_data`, `processed_urls`; `skipped` keeps the row number and reasons —
the script also tucks the raw row data in for debug printing only). -/
structure SyncState where
  added : Nat := 0
  updated : Nat := 0
  skipped : List (Nat × List PyStr) := []
  newData : List Res := []
  processedUrls : List PyStr := []
deriving DecidableEq, Repr

/-- One iteration of the row loop of `main`. -/
def syncStep (data : List Res) (idx : IdxMap) (st : SyncState) (nr : Nat × List PyStr) :
    SyncState :=
  match processRow idx nr.2 with
  | .error reasons => { st with skipped := st.skipped ++ [(nr.1, reasons)] }
  | .ok res =>
    match lookupIdx data res.url with
    | some ex =>
      { st with
        processedUrls := st.processedUrls ++ [res.url]
        newData := st.newData ++ [mergeAccess res ex]
        updated := st.updated + 1 }
    | none =>
      { st with
        processedUrls := st.processedUrls ++ [res.url]
        newData := st.newData ++ [res]
        added := st.added + 1 }

/-- `enumerate(rows[1:], start=2)`. -/
def numberRows (rows : List (List PyStr)) : List (Nat × List PyStr) :=
  rows.tail.enum.map (fun p => (p.1 + 2, p.2))

structure SyncResult where
  newData : List Res
  added : Nat
  updated : Nat
  removed : Nat
  skipped : List (Nat × List PyStr)
deriving DecidableEq, Repr

/-- One full sync pass of `main` (after the rows have been fetched and the
store loaded): empty input leaves the store unchanged; otherwise detect the
columns from the header row, run the row loop, and count every indexed
existing URL that no emitted candidate carried as removed.  The output is
`new_data` alone — a full replacement. -/
def syncPass (data : List Res) (rows : List (List PyStr)) : SyncResult :=
  if rows = [] then ⟨data, 0, 0, 0, []⟩
  else
    let idx := buildIdx (rows.headD [])
    let final := (numberRows rows).foldl (syncStep data idx) {}
    let removed := ((idxKeys data).filter (fun u => !(final.processedUrls.contains u))).length
    ⟨final.newData, final.added, final.updated, removed, final.skipped⟩

/-! ## `check_accessibility.py` -/

/-- Outcome of `check_url_accessibility(url)`:
`(is_accessible, error_message, status_code)`. -/
structure ProbeResult where
  accessible : Bool
  errMsg : PyStr
  status : Int
deriving DecidableEq, Repr

/-- The per-record due test in `update_accessibility_data`.  The wall-clock
arithmetic `datetime.fromisoformat` / `total_seconds()/3600` is abstracted
into the oracle `age` (`none` models the parse `except` branch). -/
def shouldCheck (checkAll : Bool) (lastChecked : PyStr) (age : PyStr → Option ℚ) : Bool :=
  if checkAll then true
  else if lastChecked ≠ [] then
    match age lastChecked with
    | none => true
    | some h => decide (24 ≤ h)
  else false

/-- `url_indices` zipped with `urls_to_check`: the positions and urls of
records selected for probing, in record order. -/
def dueList (data : List Res) (checkAll : Bool) (age : PyStr → Option ℚ) :
    List (Nat × PyStr) :=
  data.enum.filterMap fun p =>
    if shouldCheck checkAll (p.2.lastChecked.getD []) age && p.2.url ≠ [] then
      some (p.1, p.2.url)
    else none

/-- `check_urls_batch`: every future computes `check_url_accessibility` of
its own url, but results are appended in `as_completed` order — modelled by
the completion order `order`, a permutation of `List.range urls.length`. -/
def checkUrlsBatch (probe : PyStr → ProbeResult) (urls : List PyStr) (order : List Nat) :
    List ProbeResult :=
  order.map (fun i => probe (urls.getD i []))

/-- Writing one probe result onto a record: set `accessible`, `lastChecked`
and `accessibilityStatus`; set `accessibilityError` when not accessible and
pop it otherwise. -/
def applyProbe (r : Res) (pr : ProbeResult) (now : PyStr) : Res :=
  { r with
    accessible := some pr.accessible
    lastChecked := some now
    accessibilityStatus := some pr.status
    accessibilityError := if pr.accessible then none else some pr.errMsg }

/-- `update_accessibility_data(data, check_all)`: select due records, probe
their urls concurrently (completion order `order`), then write result `i`
onto the record at `url_indices[i]`. -/
def updateAccessibility (data : List Res) (checkAll : Bool) (age : PyStr → Option ℚ)
    (probe : PyStr → ProbeResult) (order : List Nat) (now : PyStr) : List Res :=
  let due := dueList data checkAll age
  if due = [] then data
  else
    let results := checkUrlsBatch probe (due.map (·.2)) order
    ((due.map (·.1)).zip results).foldl
      (fun d p => d.set p.1 (applyProbe (d.getD p.1 {}) p.2 now)) data

/-! # Shared lemmas about the sync pass -/

/-- The validated (emitted) candidates of the row loop, in source order. -/
def okList (idx : IdxMap) (l : List (Nat × List PyStr)) : List Res :=
  l.filterMap (fun nr => (processRow idx nr.2).toOption)

/-- The skipped rows with their reasons, in source order. -/
def errList (idx : IdxMap) (l : List (Nat × List PyStr)) : List (Nat × List PyStr) :=
  l.filterMap (fun nr =>
    match processRow idx nr.2 with
    | .error rs => some (nr.1, rs)
    | .ok _ => none)

/-! # Claim C4 -/

/-- Two records, both with non-empty urls and due for probing. -/
def c4data : List Res :=
  [{ url := py "https://a.example" }, { url := py "https://b.example" }]

/-- A probe outcome that depends on the url: `a.example` is reachable,
everything else answers HTTP 500. -/
def c4probe : PyStr → ProbeResult :=
  fun u => if u = py "https://a.example" then ⟨true, [], 200⟩ else ⟨false, py "HTTP 500", 500⟩

/-! # Claim C5 -/

/-- A record with a non-empty url that has never been checked
(no `lastChecked` key). -/
def c5rec : Res := { url := py "https://a.example" }

/-! # Claim C6 -/

/-- A header row carrying the boolean columns. -/
def c6headers : List PyStr :=
  [py "Publicly Available?", py "Currently Active?", py "Requires Subscription?"]

/-! # Claim C7 -/

/-- The header string of the claim, `Contributor's E-Mail!`
(39 is the apostrophe). -/
def ceHeader : PyStr := py "Contributor" ++ [39] ++ py "s E-Mail!"

/-- The candidate list the script passes for `contributorEmail`. -/
def ceCands : List PyStr := [py "contributor email", py "contributor email"]

instance {e a : Type} [DecidableEq e] [DecidableEq a] : DecidableEq (Except e a)
  | .ok x, .ok y => decidable_of_iff (x = y) (by simp)
  | .error x, .error y => decidable_of_iff (x = y) (by simp)
  | .ok _, .error _ => isFalse (by simp)
  | .error _, .ok _ => isFalse (by simp)

/-! # Claim C8 -/

/-- Header row giving the four columns used by the C8 examples. -/
def c8idx : IdxMap := buildIdx [py "Name", py "Description", py "Type", py "URL"]

/-- The row carrying the claim's first label list. -/
def c8row : List PyStr :=
  [py "A", py "D", py "Flood, Flooding, Other: Landslide", py "https://x.com/a"]

/-- What the script actually produces for `c8row` (`public`/`active` are
false because their cells are absent, cf. C6). -/
def c8out : Res :=
  { name := py "A", description := py "D", url := py "https://x.com/a",
    notes := py "Other type(s): landslide",
    type := some (.multi [py "flood", py "other"]),
    public := false, active := false }

/-- The second C8 example row. -/
def c8row2 : List PyStr := [py "A", py "D", py "Flood,Drought", py "https://x.com/a"]

def c8out2 : Res :=
  { name := py "A", description := py "D", url := py "https://x.com/a",
    type := some (.multi [py "flood", py "drought"]),
    public := false, active := false }

/-- Concrete pass for the C1 witness: one existing record with accessibility
fields, one candidate row for the same normalised URL with a different
name. -/
def w1rows : List (List PyStr) :=
  [[py "Name", py "Description", py "Type", py "URL"],
   [py "New", py "Desc", py "Flood", py "https://x.com/a/"]]

def w1data : List Res :=
  [{ name := py "Old", description := py "OldD", url := py "https://x.com/a",
     type := some (.single (py "flood")), accessible := some true,
     lastChecked := some (py "2025-01-01T00:00:00+00:00"),
     accessibilityStatus := some 200 }]

/-- The validated candidate of `w1rows` (computed by the model itself). -/
def w1res : Res :=
  ((processRow (buildIdx (w1rows.headD [])) (w1rows.getD 1 [])).toOption).getD {}

def w1ex : Res := w1data.getD 0 {}

/-- Concrete pass for the C2 witness: the stored record's URL appears in no
candidate row. -/
def w2data : List Res :=
  [{ name := py "Gone", description := py "G", url := py "https://gone.example/z" }]

def w2rows : List (List PyStr) :=
  [[py "Name", py "Description", py "Type", py "URL"],
   [py "New", py "D", py "Flood", py "https://new.example/p"]]

def w2r : Res := w2data.getD 0 {}

/-- Concrete pass for the C10 witness: two validated rows with the same
normalised URL. -/
def w10rows : List (List PyStr) :=
  [[py "Name", py "Description", py "Type", py "URL"],
   [py "M1", py "D1", py "Flood", py "https://dup.example/p"],
   [py "M2", py "D2", py "Drought", py "https://dup.example/p/"]]

/-! # Claim C3: idempotence of `normalize_url`

The claim fails on three families of inputs (see `C3_counterexample`, which
exercises the whitespace family with an ASCII space and a no-break space);
the amended statement proved below restricts to inputs avoiding them.  The
development first establishes facts about the character pipeline
(lower-casing, stripping, UTF-8 / percent coding round trips), then the
recovery of `urlunsplit` output by `urlsplit`, then assembles the fixpoint
property of a normalised URL. -/

/-- A Unicode scalar value (what one Python `str` element holds). -/
def ValidCp (c : Nat) : Prop := c < 0x110000 ∧ ¬(0xD800 ≤ c ∧ c < 0xE000)

instance (c : Nat) : Decidable (ValidCp c) := by
  unfold ValidCp
  infer_instance

/-! ## Invariants of the components assembled by `normalize_url` -/

/-- A scheme as produced by the first normalization pass: empty, or
lower-cased with an alphabetic head and scheme characters after it. -/
def SchemeOK (s : PyStr) : Prop :=
  s = [] ∨ ∃ c cs, s = c :: cs ∧ isAsciiAlpha c = true ∧ cs.all isSchemeChar = true ∧
    pyLower (c :: cs) = c :: cs

/-- A netloc as produced by the first pass: no `/?#`, printable (neither a
control character nor Python whitespace), lower-cased. -/
def NetlocOK (n : PyStr) : Prop :=
  (∀ c ∈ n, notDelim c = true ∧ 32 < c ∧ pyIsSpace c = false) ∧ pyLower n = n

/-- A path as produced by the first pass: printable (neither a control
character nor Python whitespace), no `#` or `?`, and with no removable
trailing slash left. -/
def PathOK (p : PyStr) : Prop :=
  (∀ c ∈ p, 32 < c ∧ pyIsSpace c = false) ∧ 35 ∉ p ∧ 63 ∉ p ∧ stripSlash p = p

/-! ## Assembly helpers for the idempotence theorem -/

/-- The path adjustment of `urlunsplit` in the netloc branch (prepend `/` to
a non-empty path that does not already start with one). -/
def pathFix : PyStr → PyStr
  | [] => []
  | c :: cs => if c ≠ 47 then 47 :: c :: cs else c :: cs

/-! ## Theorems -/

theorem length_dropWhile_le (p : Nat → Bool) (l : List Nat) :
    (l.dropWhile p).length ≤ l.length := by
  induction l with
  | nil => simp [List.dropWhile]
  | cons c rest ih =>
    by_cases h : p c
    · simp [List.dropWhile, h]; omega
    · simp [List.dropWhile, h]

theorem emitFor_url (data : List Res) (res : Res) : (emitFor data res).url = res.url := by
  unfold emitFor
  cases lookupIdx data res.url with
  | none => rfl
  | some ex => rfl

theorem foldl_syncStep (data : List Res) (idx : IdxMap) (l : List (Nat × List PyStr))
    (st : SyncState) :
    (l.foldl (syncStep data idx) st).newData
        = st.newData ++ (okList idx l).map (emitFor data) ∧
    (l.foldl (syncStep data idx) st).processedUrls
        = st.processedUrls ++ (okList idx l).map (fun res => res.url) ∧
    (l.foldl (syncStep data idx) st).added
        = st.added + ((okList idx l).filter (fun res => (lookupIdx data res.url).isNone)).length ∧
    (l.foldl (syncStep data idx) st).updated
        = st.updated + ((okList idx l).filter (fun res => (lookupIdx data res.url).isSome)).length ∧
    (l.foldl (syncStep data idx) st).skipped
        = st.skipped ++ errList idx l := by
  induction l generalizing st with
  | nil => simp [okList, errList]
  | cons nr rest ih =>
    simp only [List.foldl_cons]
    have h := ih (syncStep data idx st nr)
    unfold syncStep at h ⊢
    cases hpr : processRow idx nr.2 with
    | error rs =>
      simp only [hpr] at h
      simp only [okList, errList, List.filterMap_cons, hpr, Except.toOption] at *
      simp_all
    | ok res =>
      cases hlk : lookupIdx data res.url with
      | some ex =>
        simp only [hpr, hlk] at h
        simp only [okList, errList, List.filterMap_cons, hpr, Except.toOption] at *
        simp_all [emitFor, hlk, Option.isSome, Option.isNone] <;> omega
      | none =>
        simp only [hpr, hlk] at h
        simp only [okList, errList, List.filterMap_cons, hpr, Except.toOption] at *
        simp_all [emitFor, hlk, Option.isSome, Option.isNone] <;> omega

theorem mem_dedupFirst_aux (l : List PyStr) (acc : List PyStr) (x : PyStr) :
    x ∈ l.foldl (fun acc t => if acc.contains t then acc else acc ++ [t]) acc ↔
      x ∈ acc ∨ x ∈ l := by
  induction l generalizing acc with
  | nil => simp
  | cons t rest ih =>
    simp only [List.foldl_cons]
    by_cases h : acc.contains t
    · rw [if_pos h, ih]
      constructor
      · rintro (hx | hx)
        · exact Or.inl hx
        · exact Or.inr (List.mem_cons_of_mem _ hx)
      · rintro (hx | hx)
        · exact Or.inl hx
        · rcases List.mem_cons.mp hx with rfl | hx
          · exact Or.inl (by simpa using h)
          · exact Or.inr hx
    · rw [if_neg h, ih]
      simp only [List.mem_append, List.mem_singleton, List.mem_cons]
      tauto

theorem mem_dedupFirst (l : List PyStr) (x : PyStr) : x ∈ dedupFirst l ↔ x ∈ l := by
  unfold dedupFirst
  rw [mem_dedupFirst_aux]
  simp

/-- C4.  The claim — every record is updated with the accessibility result
of probing its own `url`, for every completion order — is FALSE on the code:
`check_urls_batch` appends results in `as_completed` (completion) order and
`update_accessibility_data` zips that list positionally with `url_indices`.
When the second probe finishes first (completion order `[1, 0]`), the record
for `https://a.example` receives the result of probing `https://b.example`
(`accessible = false`) although probing its own url yields `accessible =
true`; with completion order `[0, 1]` the same record receives `true` — so
the outcome also depends on completion order. -/
theorem C4_results_follow_completion_order :
    ((updateAccessibility c4data true (fun _ => none) c4probe [1, 0] (py "now")).getD 0
        {}).accessible = some false ∧
    (c4probe ((c4data.getD 0 {}).url)).accessible = true ∧
    ((updateAccessibility c4data true (fun _ => none) c4probe [0, 1] (py "now")).getD 0
        {}).accessible = some true := by decide

/-- C5.  The claim — with check-all off, a record with a non-empty url is
selected when `lastChecked` is absent — is FALSE on the code: the loop only
enters the re-check computation under `if not should_check and last_checked:`,
so an absent (empty) `lastChecked` leaves `should_check = False` and the
record is never probed in the default mode.  Here the whole update pass
returns the data unchanged although it contains an unchecked record with a
url. -/
theorem C5_never_checked_record_not_selected :
    shouldCheck false [] (fun _ => none) = false ∧
    dueList [c5rec] false (fun _ => none) = [] ∧
    updateAccessibility [c5rec] false (fun _ => none)
      (fun _ => ⟨true, [], 200⟩) [0] (py "now") = [c5rec] := by decide

/-- C6 as stated is FALSE: `to_bool` maps the empty string to `False`
(the empty string is in its false-list), so `public` and `active` extract to
`false` — not `true` — when their cell is absent (here: a row with no cells
at all). -/
theorem C6_counterexample :
    to_bool (some (py "")) true = false ∧
    (extractRes (buildIdx c6headers) []).public = false ∧
    (extractRes (buildIdx c6headers) []).active = false := by decide

theorem to_bool_of_unparsed (v : PyStr) (d : Bool)
    (h1 : pyLower (pyStrip v) ∉ trueStrings) (h2 : pyLower (pyStrip v) ∉ falseStrings) :
    to_bool (some v) d = d := by
  simp only [to_bool]
  rw [if_neg (by simpa using h1), if_neg (by simpa using h2)]

theorem to_bool_empty (d : Bool) : to_bool (some []) d = false := by
  cases d <;> decide

/-- C6 amended: for every source row, `public` and `active` extract to true
when their cell is present, non-empty and unparseable as a boolean, to false
when the cell is absent or empty, and `subscription` extracts to false
whenever its cell does not parse as a true-string (in particular when absent
or unparseable). -/
theorem C6_amended (idx : IdxMap) (r : List PyStr) :
    ((pyLower (pyStrip (cell r idx.public)) ∉ trueStrings →
        pyLower (pyStrip (cell r idx.public)) ∉ falseStrings →
        (extractRes idx r).public = true) ∧
      (cell r idx.public = [] → (extractRes idx r).public = false)) ∧
    ((pyLower (pyStrip (cell r idx.active)) ∉ trueStrings →
        pyLower (pyStrip (cell r idx.active)) ∉ falseStrings →
        (extractRes idx r).active = true) ∧
      (cell r idx.active = [] → (extractRes idx r).active = false)) ∧
    (pyLower (pyStrip (cell r idx.subscription)) ∉ trueStrings →
      (extractRes idx r).subscription = false) := by
  refine ⟨⟨fun h1 h2 => ?_, fun h => ?_⟩, ⟨fun h1 h2 => ?_, fun h => ?_⟩, fun h1 => ?_⟩
  · show to_bool (some (cell r idx.public)) true = true
    exact to_bool_of_unparsed _ _ h1 h2
  · show to_bool (some (cell r idx.public)) true = false
    rw [h]; exact to_bool_empty true
  · show to_bool (some (cell r idx.active)) true = true
    exact to_bool_of_unparsed _ _ h1 h2
  · show to_bool (some (cell r idx.active)) true = false
    rw [h]; exact to_bool_empty true
  · show to_bool (some (cell r idx.subscription)) false = false
    simp only [to_bool]
    rw [if_neg (by simpa using h1)]
    split <;> rfl

/-- Witness for `C6_amended` at a concrete row with unparseable cells. -/
theorem C6_amended_witness :
    pyLower (pyStrip (cell [py "maybe", py "perhaps", py "dunno"]
        (buildIdx c6headers).public)) ∉ trueStrings ∧
    pyLower (pyStrip (cell [py "maybe", py "perhaps", py "dunno"]
        (buildIdx c6headers).public)) ∉ falseStrings ∧
    (extractRes (buildIdx c6headers) [py "maybe", py "perhaps", py "dunno"]).public = true ∧
    (extractRes (buildIdx c6headers) [py "maybe", py "perhaps", py "dunno"]).subscription
      = false :=
  ⟨by decide, by decide,
   (C6_amended (buildIdx c6headers) [py "maybe", py "perhaps", py "dunno"]).1.1
     (by decide) (by decide),
   (C6_amended (buildIdx c6headers) [py "maybe", py "perhaps", py "dunno"]).2.2
     (by decide)⟩

/-- C7 as stated is FALSE: the header cleans to `contributor s e mail`
(apostrophe, hyphen and bang each become a token break), which is not equal
to `contributor email`, does not start with it, and cannot contain the
two-word candidate as a single space-delimited token — so `detect_column`
does not resolve the field to this header. -/
theorem C7_counterexample :
    detect_column [ceHeader] ceCands = none ∧
    (buildIdx [ceHeader]).contributorEmail = none ∧
    cleanHeader ceHeader = py "contributor s e mail" ∧
    headerMatch ceHeader (py "contributor email") = false := by decide

theorem findIdx?_ge (p : PyStr → Bool) (l : List PyStr) (j k : Nat)
    (h : l.findIdx? p j = some k) : j ≤ k := by
  induction l generalizing j with
  | nil => simp [List.findIdx?] at h
  | cons x xs ih =>
    rw [List.findIdx?_cons] at h
    by_cases hp : p x
    · rw [if_pos hp] at h
      cases h
      omega
    · rw [if_neg hp] at h
      have := ih (j + 1) h
      omega

theorem findIdx?_getD (p : PyStr → Bool) (l : List PyStr) (i j : Nat)
    (h : l.findIdx? p j = some (i + j)) : p (l.getD i []) = true := by
  induction l generalizing i j with
  | nil => simp [List.findIdx?] at h
  | cons x xs ih =>
    rw [List.findIdx?_cons] at h
    by_cases hp : p x
    · rw [if_pos hp] at h
      have : i + j = j := by
        have := Option.some.inj h
        omega
      have hi : i = 0 := by omega
      subst hi
      simpa using hp
    · rw [if_neg hp] at h
      have hge := findIdx?_ge p xs (j + 1) (i + j) h
      have hi : 1 ≤ i := by omega
      obtain ⟨i2, rfl⟩ : ∃ i2, i = i2 + 1 := ⟨i - 1, by omega⟩
      have h2 : xs.findIdx? p (j + 1) = some (i2 + (j + 1)) := by
        rw [h]
        congr 1
        omega
      have := ih i2 (j + 1) h2
      simpa using this

/-- C7 amended: the header `Contributor's E-Mail!` does NOT resolve to the
`contributorEmail` field: whenever the script's column detection for that
field returns an index, the header at that index is a different string
(under the cleaned-token rule the cleaned header `contributor s e mail`
matches `contributor email` neither by equality, nor prefix, nor whole-word
containment). -/
theorem C7_amended (headers : List PyStr) (i : Nat)
    (h : (buildIdx headers).contributorEmail = some i) :
    headers.getD i [] ≠ ceHeader := by
  intro heq
  have h2 : detect_column headers ceCands = some i := h
  unfold detect_column at h2
  have h3 : headers.findIdx? (fun hd => ceCands.any (fun cand => headerMatch hd cand)) 0
      = some (i + 0) := by simpa using h2
  have h4 := findIdx?_getD _ headers i 0 h3
  rw [heq] at h4
  exact absurd h4 (by decide)

/-- Witness for `C7_amended`: in a header row where another header does
match, detection picks that one, which the theorem then distinguishes from
`Contributor's E-Mail!`. -/
theorem C7_amended_witness :
    (buildIdx [py "Contact", py "Contributor Email", ceHeader]).contributorEmail
        = some 1 ∧
    [py "Contact", py "Contributor Email", ceHeader].getD 1 [] ≠ ceHeader :=
  ⟨by decide,
   C7_amended [py "Contact", py "Contributor Email", ceHeader] 1 (by decide)⟩

/-- C8 as stated is FALSE on its first example: `Other: Landslide`
normalises to the allowed token `other`, so the deduplicated token list is
`["flood", "other"]` — two tokens, hence a sequence, not the scalar
`"flood"`; and the captured other-text is lower-cased before it reaches the
notes, so the notes entry reads `Other type(s): landslide`, not
`… Landslide`. -/
theorem C8_counterexample :
    processRow c8idx c8row = .ok c8out ∧
    c8out.type ≠ some (.single (py "flood")) ∧
    c8out.notes ≠ py "Other type(s): Landslide" := by decide

theorem processRow_ok_type (idx : IdxMap) (r : List PyStr) (res : Res)
    (h : processRow idx r = .ok res) :
    (typeTokens (cell r idx.types)).1 ≠ [] ∧
    res.type = some (if (typeTokens (cell r idx.types)).1.length > 1
      then .multi (typeTokens (cell r idx.types)).1
      else .single ((typeTokens (cell r idx.types)).1.headD [])) := by
  unfold processRow at h
  by_cases hrs : rowReasons idx r ≠ []
  · rw [if_pos hrs] at h
    exact absurd h (by simp)
  · rw [if_neg hrs] at h
    push_neg at hrs
    have hr := Except.ok.inj h
    constructor
    · intro hempty
      have hmem : py "no valid types" ∈ rowReasons idx r := by
        unfold rowReasons
        simp [hempty]
      rw [hrs] at hmem
      simp at hmem
    · rw [← hr]

/-- C8 amended: on `["Flood","Flooding","Other: Landslide"]` the extracted
`type` is the sequence `["flood","other"]` (the `Other:` label itself
contributes the allowed token `other`) and the notes entry is
`Other type(s): landslide` (lower-cased text); on `["Flood","Drought"]` the
`type` is `["flood","drought"]`; and in general a validated row's `type` is
the single deduplicated token as a scalar when exactly one remains, and the
ordered first-seen-deduplicated list when more than one. -/
theorem C8_amended :
    (processRow c8idx c8row = .ok c8out ∧
      c8out.type = some (.multi [py "flood", py "other"]) ∧
      c8out.notes = py "Other type(s): landslide") ∧
    (processRow c8idx c8row2 = .ok c8out2 ∧
      c8out2.type = some (.multi [py "flood", py "drought"])) ∧
    ∀ (idx : IdxMap) (r : List PyStr) (res : Res), processRow idx r = .ok res →
      (typeTokens (cell r idx.types)).1 ≠ [] ∧
      ((typeTokens (cell r idx.types)).1.length = 1 →
        res.type = some (.single ((typeTokens (cell r idx.types)).1.headD []))) ∧
      (1 < (typeTokens (cell r idx.types)).1.length →
        res.type = some (.multi (typeTokens (cell r idx.types)).1)) := by
  refine ⟨by decide, by decide, fun idx r res h => ?_⟩
  obtain ⟨hne, hty⟩ := processRow_ok_type idx r res h
  refine ⟨hne, fun h1 => ?_, fun h1 => ?_⟩
  · rw [hty, if_neg (by omega)]
  · rw [hty, if_pos (by omega)]

/-- Witness for the universal part of `C8_amended` (its first two conjuncts
are closed): instantiated at `c8row2`, whose token list has length two. -/
theorem C8_amended_witness :
    processRow c8idx c8row2 = .ok c8out2 ∧
    1 < (typeTokens (cell c8row2 c8idx.types)).1.length ∧
    c8out2.type = some (.multi (typeTokens (cell c8row2 c8idx.types)).1) :=
  ⟨by decide, by decide,
   (C8_amended.2.2 c8idx c8row2 c8out2 (by decide)).2.2 (by decide)⟩

/-! # Claim C9 -/

/-- C9: a row whose extracted `description` is empty is rejected with a
reason list containing `missing description`; the row-loop step for it
leaves `new_data` and the added/updated counters untouched (it only appends
to `skipped`), and validation is a total skip-and-continue function — it
never aborts the pass. -/
theorem C9_missing_description (idx : IdxMap) (r : List PyStr)
    (h : cell r idx.description = []) :
    processRow idx r = .error (rowReasons idx r) ∧
    py "missing description" ∈ rowReasons idx r ∧
    ∀ (data : List Res) (st : SyncState) (n : Nat),
      (syncStep data idx st (n, r)).newData = st.newData ∧
      (syncStep data idx st (n, r)).added = st.added ∧
      (syncStep data idx st (n, r)).updated = st.updated ∧
      (syncStep data idx st (n, r)).skipped = st.skipped ++ [(n, rowReasons idx r)] := by
  have hd : (extractRes idx r).description = [] := h
  have hmem : py "missing description" ∈ rowReasons idx r := by
    unfold rowReasons
    simp [hd]
  have hne : rowReasons idx r ≠ [] := by
    intro h0
    rw [h0] at hmem
    simp at hmem
  have hpr : processRow idx r = .error (rowReasons idx r) := by
    unfold processRow
    rw [if_pos hne]
  refine ⟨hpr, hmem, fun data st n => ?_⟩
  unfold syncStep
  rw [hpr]
  exact ⟨rfl, rfl, rfl, rfl⟩

/-- Witness for `C9_missing_description` at a concrete row with an empty
description cell. -/
theorem C9_witness :
    cell [py "A", py "", py "Flood", py "https://x.com/a"] c8idx.description = [] ∧
    (processRow c8idx [py "A", py "", py "Flood", py "https://x.com/a"]
        = .error (rowReasons c8idx [py "A", py "", py "Flood", py "https://x.com/a"]) ∧
      py "missing description"
        ∈ rowReasons c8idx [py "A", py "", py "Flood", py "https://x.com/a"] ∧
      ∀ (data : List Res) (st : SyncState) (n : Nat),
        (syncStep data c8idx st (n, [py "A", py "", py "Flood", py "https://x.com/a"])).newData
            = st.newData ∧
        (syncStep data c8idx st (n, [py "A", py "", py "Flood", py "https://x.com/a"])).added
            = st.added ∧
        (syncStep data c8idx st (n, [py "A", py "", py "Flood", py "https://x.com/a"])).updated
            = st.updated ∧
        (syncStep data c8idx st (n, [py "A", py "", py "Flood", py "https://x.com/a"])).skipped
            = st.skipped
              ++ [(n, rowReasons c8idx [py "A", py "", py "Flood", py "https://x.com/a"])]) :=
  ⟨by decide, C9_missing_description c8idx _ (by decide)⟩

/-! # Claims C1, C2, C10: the reconciliation pass -/

theorem filter_length_partition {a : Type} (p : a → Bool) (l : List a) :
    (l.filter p).length + (l.filter (fun x => !(p x))).length = l.length := by
  induction l with
  | nil => simp
  | cons x xs ih =>
    by_cases h : p x <;> simp [List.filter_cons, h] <;> omega

/-- Shape of one sync pass on non-empty input: the output is exactly the
emitted candidates in source order, the counters count the validated
candidates by whether their normalised URL hits the index, and `removed`
counts the indexed existing URLs no candidate carried. -/
theorem syncPass_eq (data : List Res) (rows : List (List PyStr)) (h : rows ≠ []) :
    (syncPass data rows).newData
        = (okList (buildIdx (rows.headD [])) (numberRows rows)).map (emitFor data) ∧
    (syncPass data rows).added
        = ((okList (buildIdx (rows.headD [])) (numberRows rows)).filter
            (fun res => (lookupIdx data res.url).isNone)).length ∧
    (syncPass data rows).updated
        = ((okList (buildIdx (rows.headD [])) (numberRows rows)).filter
            (fun res => (lookupIdx data res.url).isSome)).length ∧
    (syncPass data rows).removed
        = ((idxKeys data).filter
            (fun u => !(((okList (buildIdx (rows.headD [])) (numberRows rows)).map
                (fun res => res.url)).contains u))).length ∧
    (syncPass data rows).skipped = errList (buildIdx (rows.headD [])) (numberRows rows) := by
  unfold syncPass
  rw [if_neg h]
  have hf := foldl_syncStep data (buildIdx (rows.headD [])) (numberRows rows) {}
  obtain ⟨h1, h2, h3, h4, h5⟩ := hf
  dsimp only
  rw [h1, h2, h3, h4, h5]
  refine ⟨by simp, by simp, by simp, by simp, by simp⟩

/-- C1.  For every sync pass and validated candidate `res` whose normalised
URL hits the existing index at record `ex`: the pass emits `mergeAccess res
ex` (and the whole output is the emitted candidates); the emitted record
agrees with the candidate on every extracted field, while each of the four
accessibility fields equals the existing record's optional value — present
exactly when present on `ex`, absent otherwise (`none`, never a null
value). -/
theorem C1_identity_merge (data : List Res) (rows : List (List PyStr))
    (hrows : rows ≠ []) (res ex : Res)
    (hres : res ∈ okList (buildIdx (rows.headD [])) (numberRows rows))
    (hex : lookupIdx data res.url = some ex) :
    mergeAccess res ex ∈ (syncPass data rows).newData ∧
    (syncPass data rows).newData
        = (okList (buildIdx (rows.headD [])) (numberRows rows)).map (emitFor data) ∧
    emitFor data res = mergeAccess res ex ∧
    (mergeAccess res ex).name = res.name ∧
    (mergeAccess res ex).description = res.description ∧
    (mergeAccess res ex).url = res.url ∧
    (mergeAccess res ex).organization = res.organization ∧
    (mergeAccess res ex).contact = res.contact ∧
    (mergeAccess res ex).contributorName = res.contributorName ∧
    (mergeAccess res ex).contributorEmail = res.contributorEmail ∧
    (mergeAccess res ex).notes = res.notes ∧
    (mergeAccess res ex).subscription = res.subscription ∧
    (mergeAccess res ex).researchOrOps = res.researchOrOps ∧
    (mergeAccess res ex).public = res.public ∧
    (mergeAccess res ex).active = res.active ∧
    (mergeAccess res ex).type = res.type ∧
    (mergeAccess res ex).accessible = ex.accessible ∧
    (mergeAccess res ex).lastChecked = ex.lastChecked ∧
    (mergeAccess res ex).accessibilityStatus = ex.accessibilityStatus ∧
    (mergeAccess res ex).accessibilityError = ex.accessibilityError := by
  have hemit : emitFor data res = mergeAccess res ex := by
    unfold emitFor
    rw [hex]
  refine ⟨?_, (syncPass_eq data rows hrows).1, hemit,
    rfl, rfl, rfl, rfl, rfl, rfl, rfl, rfl, rfl, rfl, rfl, rfl, rfl, rfl, rfl, rfl, rfl⟩
  rw [(syncPass_eq data rows hrows).1, ← hemit]
  exact List.mem_map_of_mem (emitFor data) hres

/-- C2.  Every existing record whose non-empty normalised URL is carried by
no validated candidate of the pass is dropped: no output record has that
URL, the output is exactly the emitted candidates (full replacement), and
the URL is among the indexed URLs counted by the removed total. -/
theorem C2_full_replace_removal (data : List Res) (rows : List (List PyStr))
    (hrows : rows ≠ []) (r : Res) (hr : r ∈ data) (hnz : normalize_url r.url ≠ [])
    (habsent : normalize_url r.url ∉
      (okList (buildIdx (rows.headD [])) (numberRows rows)).map (fun res => res.url)) :
    (∀ rec ∈ (syncPass data rows).newData, rec.url ≠ normalize_url r.url) ∧
    (syncPass data rows).newData
        = (okList (buildIdx (rows.headD [])) (numberRows rows)).map (emitFor data) ∧
    normalize_url r.url ∈ (idxKeys data).filter
        (fun u => !(((okList (buildIdx (rows.headD [])) (numberRows rows)).map
            (fun res => res.url)).contains u)) ∧
    (syncPass data rows).removed
        = ((idxKeys data).filter
            (fun u => !(((okList (buildIdx (rows.headD [])) (numberRows rows)).map
                (fun res => res.url)).contains u))).length := by
  obtain ⟨h1, _, _, h4, _⟩ := syncPass_eq data rows hrows
  refine ⟨?_, h1, ?_, h4⟩
  · intro rec hrec
    rw [h1] at hrec
    obtain ⟨res, hresmem, rfl⟩ := List.mem_map.mp hrec
    rw [emitFor_url]
    intro hequ
    exact habsent (List.mem_map.mpr ⟨res, hresmem, hequ⟩)
  · rw [List.mem_filter]
    constructor
    · rw [idxKeys, mem_dedupFirst, List.mem_map]
      refine ⟨(normalize_url r.url, r), ?_, rfl⟩
      rw [idxEntries, List.mem_filterMap]
      refine ⟨r, hr, ?_⟩
      rw [if_neg hnz]
    · simpa using habsent

/-- C10.  The reconciler does not deduplicate candidates: the output has one
record per validated candidate (so two validated rows with the same
normalised URL both appear — the per-URL multiplicities agree), and
added/updated count every validated candidate by its own index lookup,
summing to the number of validated candidates. -/
theorem C10_no_dedup (data : List Res) (rows : List (List PyStr))
    (hrows : rows ≠ []) (u : PyStr) :
    ((syncPass data rows).newData.filter (fun rec => rec.url = u)).length
        = ((okList (buildIdx (rows.headD [])) (numberRows rows)).filter
            (fun res => res.url = u)).length ∧
    (syncPass data rows).newData.length
        = (okList (buildIdx (rows.headD [])) (numberRows rows)).length ∧
    (syncPass data rows).added
        = ((okList (buildIdx (rows.headD [])) (numberRows rows)).filter
            (fun res => (lookupIdx data res.url).isNone)).length ∧
    (syncPass data rows).updated
        = ((okList (buildIdx (rows.headD [])) (numberRows rows)).filter
            (fun res => (lookupIdx data res.url).isSome)).length ∧
    (syncPass data rows).added + (syncPass data rows).updated
        = (okList (buildIdx (rows.headD [])) (numberRows rows)).length := by
  obtain ⟨h1, h2, h3, _, _⟩ := syncPass_eq data rows hrows
  refine ⟨?_, ?_, h2, h3, ?_⟩
  · rw [h1, List.filter_map, List.length_map]
    congr 1
    apply List.filter_congr
    intro res _
    simp [Function.comp, emitFor_url]
  · rw [h1, List.length_map]
  · rw [h2, h3]
    have hp := filter_length_partition
      (fun res => (lookupIdx data res.url).isNone)
      (okList (buildIdx (rows.headD [])) (numberRows rows))
    have hcongr : (okList (buildIdx (rows.headD [])) (numberRows rows)).filter
        (fun res => !(lookupIdx data res.url).isNone)
        = (okList (buildIdx (rows.headD [])) (numberRows rows)).filter
            (fun res => (lookupIdx data res.url).isSome) := by
      apply List.filter_congr
      intro res _
      cases lookupIdx data res.url <;> rfl
    rw [← hcongr]
    omega

/-- Witness for `C1_identity_merge` at the concrete pass above. -/
theorem C1_witness :
    lookupIdx w1data w1res.url = some w1ex ∧
    w1res ∈ okList (buildIdx (w1rows.headD [])) (numberRows w1rows) ∧
    mergeAccess w1res w1ex ∈ (syncPass w1data w1rows).newData :=
  ⟨by decide, by decide,
   (C1_identity_merge w1data w1rows (by decide) w1res w1ex (by decide) (by decide)).1⟩

/-- Witness for `C2_full_replace_removal` at the concrete pass above. -/
theorem C2_witness :
    w2r ∈ w2data ∧ normalize_url w2r.url ≠ [] ∧
    normalize_url w2r.url ∉
      (okList (buildIdx (w2rows.headD [])) (numberRows w2rows)).map (fun res => res.url) ∧
    ((syncPass w2data w2rows).newData.getD 0 {}).url ≠ normalize_url w2r.url ∧
    (syncPass w2data w2rows).removed = 1 :=
  ⟨by decide, by decide, by decide,
   (C2_full_replace_removal w2data w2rows (by decide) w2r (by decide) (by decide)
       (by decide)).1 ((syncPass w2data w2rows).newData.getD 0 {}) (by decide),
   by decide⟩

/-- Witness for `C10_no_dedup`: both duplicate candidates land in the
output, and both are counted as added. -/
theorem C10_witness :
    ((okList (buildIdx (w10rows.headD [])) (numberRows w10rows)).filter
        (fun res => res.url = py "https://dup.example/p")).length = 2 ∧
    (((syncPass ([] : List Res) w10rows).newData.filter
        (fun rec => rec.url = py "https://dup.example/p")).length = 2 ∧
      (syncPass ([] : List Res) w10rows).added = 2) :=
  ⟨by decide,
   by rw [(C10_no_dedup ([] : List Res) w10rows (by decide)
       (py "https://dup.example/p")).1]; decide,
   by decide⟩

theorem C3_counterexample :
    normalize_url (normalize_url (py "https://x.com/a//"))
        ≠ normalize_url (py "https://x.com/a//") ∧
    normalize_url (normalize_url (py "http://h/a ?utm_x=1"))
        ≠ normalize_url (py "http://h/a ?utm_x=1") ∧
    normalize_url (normalize_url (py "http://h/a\u00A0?utm_x=1"))
        ≠ normalize_url (py "http://h/a\u00A0?utm_x=1") ∧
    normalize_url (normalize_url (py "////X")) ≠ normalize_url (py "////X") := by decide

theorem lowerChar_eq_or0 (c : Nat) :
    lowerChar c = c ∨ (65 ≤ c ∧ c ≤ 90 ∧ lowerChar c = c + 32) := by
  by_cases h : 65 ≤ c ∧ c ≤ 90
  · exact Or.inr ⟨h.1, h.2, by unfold lowerChar; rw [if_pos h]⟩
  · exact Or.inl (by unfold lowerChar; rw [if_neg h])

theorem lowerChar_idem (c : Nat) : lowerChar (lowerChar c) = lowerChar c := by
  rcases lowerChar_eq_or0 c with he | ⟨h1, h2, he⟩
  · rw [he, he]
  · rw [he]
    unfold lowerChar
    rw [if_neg (by omega)]

theorem pyLower_idem (s : PyStr) : pyLower (pyLower s) = pyLower s := by
  unfold pyLower
  rw [List.map_map]
  apply List.map_congr_left
  intro c _
  exact lowerChar_idem c

theorem lowerChar_notDelim (c : Nat) (h : notDelim c = true) : notDelim (lowerChar c) = true := by
  rcases lowerChar_eq_or0 c with he | ⟨h1, h2, he⟩ <;> rw [he] <;>
    simp_all [notDelim] <;> omega

theorem lowerChar_not_space (c : Nat) (h : pyIsSpace c = false) :
    pyIsSpace (lowerChar c) = false := by
  rcases lowerChar_eq_or0 c with he | ⟨h1, h2, he⟩ <;> rw [he] <;>
    simp_all [pyIsSpace] <;> omega

theorem lowerChar_schemeChar (c : Nat) (h : isSchemeChar c = true) :
    isSchemeChar (lowerChar c) = true := by
  rcases lowerChar_eq_or0 c with he | ⟨h1, h2, he⟩ <;> rw [he] <;>
    simp_all [isSchemeChar, isAsciiAlnum, isAsciiDigit, isAsciiAlpha] <;> omega

theorem dropWhile_eq_self_of_none (p : Nat → Bool) (s : List Nat)
    (h : ∀ c ∈ s, p c = false) : s.dropWhile p = s := by
  cases s with
  | nil => rfl
  | cons c rest =>
    rw [List.dropWhile_cons_of_neg]
    rw [h c (by simp)]
    simp

/-- A whitespace-free list is fixed by `pyStrip`. -/
theorem pyStrip_eq_self (s : PyStr) (h : ∀ c ∈ s, pyIsSpace c = false) : pyStrip s = s := by
  unfold pyStrip
  rw [dropWhile_eq_self_of_none _ _ h]
  rw [dropWhile_eq_self_of_none _ _ (by intro c hc; exact h c (by simpa using hc))]
  exact List.reverse_reverse s

/-- A list of characters above 32 is fixed by `removeUnsafe` (which only
removes tab, CR and LF). -/
theorem removeUnsafe_eq_self (s : PyStr) (h : ∀ c ∈ s, 32 < c) :
    removeUnsafe s = s := by
  unfold removeUnsafe
  apply List.filter_eq_self.mpr
  intro c hc
  have h2 := h c hc
  simp
  omega

/-- A list whose head is above 32 is fixed by `lstripC0`. -/
theorem lstripC0_eq_self (s : PyStr) (h : ∀ c, s.head? = some c → 32 < c) :
    lstripC0 s = s := by
  unfold lstripC0
  cases s with
  | nil => rfl
  | cons c rest =>
    have := h c rfl
    rw [List.dropWhile_cons_of_neg]
    simp
    omega

/-- `stripSlash` is idempotent on paths that do not end in `//` (and on the
path `//` itself). -/
theorem stripSlash_idem (p : PyStr) (h : ¬ [47, 47] <:+ p ∨ p = [47, 47]) :
    stripSlash (stripSlash p) = stripSlash p := by
  rcases h with h | rfl
  · by_cases hc : p.getLast? = some 47 ∧ p ≠ [47]
    · have h1 : stripSlash p = p.dropLast := by
        unfold stripSlash
        rw [if_pos hc]
      rw [h1]
      unfold stripSlash
      rw [if_neg]
      rintro ⟨hlast2, -⟩
      apply h
      obtain ⟨t1, ht1⟩ := List.getLast?_eq_some_iff.mp hc.1
      rw [ht1, List.dropLast_concat] at hlast2
      obtain ⟨t2, ht2⟩ := List.getLast?_eq_some_iff.mp hlast2
      exact ⟨t2, by rw [ht1, ht2]; simp⟩
    · have h1 : stripSlash p = p := by
        unfold stripSlash
        rw [if_neg hc]
      rw [h1, h1]
  · decide

/-! ## UTF-8 round trip -/

theorem isCont_of (b1 : Nat) (h1 : 0x80 ≤ b1) (h2 : b1 ≤ 0xBF) : isCont b1 = true := by
  unfold isCont
  simp only [Bool.and_eq_true, decide_eq_true_eq]
  exact ⟨h1, h2⟩

theorem isCont_bounds (b1 : Nat) (h : isCont b1 = true) : 0x80 ≤ b1 ∧ b1 ≤ 0xBF := by
  unfold isCont at h
  simpa using h

theorem cont3Ok_bounds (b b1 : Nat) (h : cont3Ok b b1 = true) :
    0x80 ≤ b1 ∧ b1 ≤ 0xBF ∧ (b = 0xE0 → 0xA0 ≤ b1) ∧ (b = 0xED → b1 ≤ 0x9F) := by
  unfold cont3Ok at h
  by_cases hE : b = 0xE0
  · rw [if_pos hE] at h
    simp only [Bool.and_eq_true, decide_eq_true_eq] at h
    exact ⟨by omega, h.2, fun _ => h.1, fun hED => by omega⟩
  · rw [if_neg hE] at h
    by_cases hD : b = 0xED
    · rw [if_pos hD] at h
      simp only [Bool.and_eq_true, decide_eq_true_eq] at h
      exact ⟨h.1, by omega, fun hE0 => absurd hE0 hE, fun _ => h.2⟩
    · rw [if_neg hD] at h
      have := isCont_bounds _ h
      exact ⟨this.1, this.2, fun hE0 => absurd hE0 hE, fun hED => absurd hED hD⟩

theorem cont4Ok_bounds (b b1 : Nat) (h : cont4Ok b b1 = true) :
    0x80 ≤ b1 ∧ b1 ≤ 0xBF ∧ (b = 0xF0 → 0x90 ≤ b1) ∧ (b = 0xF4 → b1 ≤ 0x8F) := by
  unfold cont4Ok at h
  by_cases hE : b = 0xF0
  · rw [if_pos hE] at h
    simp only [Bool.and_eq_true, decide_eq_true_eq] at h
    exact ⟨by omega, h.2, fun _ => h.1, fun h4 => by omega⟩
  · rw [if_neg hE] at h
    by_cases hD : b = 0xF4
    · rw [if_pos hD] at h
      simp only [Bool.and_eq_true, decide_eq_true_eq] at h
      exact ⟨h.1, by omega, fun h0 => absurd h0 hE, fun _ => h.2⟩
    · rw [if_neg hD] at h
      have := isCont_bounds _ h
      exact ⟨this.1, this.2, fun h0 => absurd h0 hE, fun h4 => absurd h4 hD⟩

theorem utf8Decode_one (b : Nat) (bs : List Nat) (h : b < 0x80) :
    utf8Decode (b :: bs) = b :: utf8Decode bs := by
  match bs with
  | [] =>
    show utf8Decode [b] = _
    conv_lhs => rw [utf8Decode]
    rw [if_pos h]
    rfl
  | [c] =>
    show utf8Decode [b, c] = _
    conv_lhs => rw [utf8Decode]
    rw [if_pos h]
  | [c, d] =>
    show utf8Decode [b, c, d] = _
    conv_lhs => rw [utf8Decode]
    rw [if_pos h]
  | c :: d :: e :: rest =>
    show utf8Decode (b :: c :: d :: e :: rest) = _
    conv_lhs => rw [utf8Decode]
    rw [if_pos h]

theorem utf8Decode_two (b b1 : Nat) (bs : List Nat)
    (hb : 0xC2 ≤ b ∧ b ≤ 0xDF) (h1 : isCont b1 = true) :
    utf8Decode (b :: b1 :: bs) = ((b - 0xC0) * 64 + (b1 - 0x80)) :: utf8Decode bs := by
  match bs with
  | [] =>
    show utf8Decode [b, b1] = _
    conv_lhs => rw [utf8Decode]
    rw [if_neg (by omega), if_pos hb, if_pos h1]
    rfl
  | [c] =>
    show utf8Decode [b, b1, c] = _
    conv_lhs => rw [utf8Decode]
    rw [if_neg (by omega), if_pos hb, if_pos h1]
  | c :: d :: rest =>
    show utf8Decode (b :: b1 :: c :: d :: rest) = _
    conv_lhs => rw [utf8Decode]
    rw [if_neg (by omega), if_pos hb, if_pos h1]

theorem utf8Decode_three (b b1 b2 : Nat) (bs : List Nat)
    (hb : 0xE0 ≤ b ∧ b ≤ 0xEF) (h1 : cont3Ok b b1 = true) (h2 : isCont b2 = true) :
    utf8Decode (b :: b1 :: b2 :: bs)
      = ((b - 0xE0) * 4096 + (b1 - 0x80) * 64 + (b2 - 0x80)) :: utf8Decode bs := by
  match bs with
  | [] =>
    show utf8Decode [b, b1, b2] = _
    conv_lhs => rw [utf8Decode]
    rw [if_neg (by omega), if_neg (by omega), if_pos hb, if_pos h1, if_pos h2]
    rfl
  | c :: rest =>
    show utf8Decode (b :: b1 :: b2 :: c :: rest) = _
    conv_lhs => rw [utf8Decode]
    rw [if_neg (by omega), if_neg (by omega), if_pos hb, if_pos h1, if_pos h2]

theorem utf8Decode_four (b b1 b2 b3 : Nat) (bs : List Nat)
    (hb : 0xF0 ≤ b ∧ b ≤ 0xF4) (h1 : cont4Ok b b1 = true) (h2 : isCont b2 = true)
    (h3 : isCont b3 = true) :
    utf8Decode (b :: b1 :: b2 :: b3 :: bs)
      = ((b - 0xF0) * 262144 + (b1 - 0x80) * 4096 + (b2 - 0x80) * 64 + (b3 - 0x80))
          :: utf8Decode bs := by
  show utf8Decode (b :: b1 :: b2 :: b3 :: bs) = _
  conv_lhs => rw [utf8Decode]
  rw [if_neg (by omega), if_neg (by omega), if_neg (by omega), if_pos hb, if_pos h1,
    if_pos h2, if_pos h3]

set_option maxRecDepth 8000 in
/-- Decoding a UTF-8-encoded scalar value recovers it, whatever follows. -/
theorem utf8_rt (n : Nat) (hv : ValidCp n) (bs : List Nat) :
    utf8Decode (utf8EncChar n ++ bs) = n :: utf8Decode bs := by
  obtain ⟨hlt, hsur⟩ := hv
  unfold utf8EncChar
  by_cases h1 : n < 0x80
  · rw [if_pos h1]
    exact utf8Decode_one n bs h1
  · by_cases h2 : n < 0x800
    · rw [if_neg h1, if_pos h2]
      show utf8Decode ((0xC0 + n / 64) :: (0x80 + n % 64) :: bs) = _
      rw [utf8Decode_two _ _ bs (by omega) (isCont_of _ (by omega) (by omega))]
      congr 1
      omega
    · by_cases h3 : n < 0x10000
      · rw [if_neg h1, if_neg h2, if_pos h3]
        show utf8Decode ((0xE0 + n / 4096) :: (0x80 + n / 64 % 64) :: (0x80 + n % 64) :: bs) = _
        have hc3 : cont3Ok (0xE0 + n / 4096) (0x80 + n / 64 % 64) = true := by
          unfold cont3Ok
          by_cases hE0 : 0xE0 + n / 4096 = 0xE0
          · rw [if_pos hE0]
            simp only [Bool.and_eq_true, decide_eq_true_eq]
            omega
          · rw [if_neg hE0]
            by_cases hED : 0xE0 + n / 4096 = 0xED
            · rw [if_pos hED]
              simp only [Bool.and_eq_true, decide_eq_true_eq]
              omega
            · rw [if_neg hED]
              exact isCont_of _ (by omega) (by omega)
        rw [utf8Decode_three _ _ _ bs (by omega) hc3 (isCont_of _ (by omega) (by omega))]
        congr 1
        omega
      · rw [if_neg h1, if_neg h2, if_neg h3]
        show utf8Decode ((0xF0 + n / 262144) :: (0x80 + n / 4096 % 64)
            :: (0x80 + n / 64 % 64) :: (0x80 + n % 64) :: bs) = _
        have hc4 : cont4Ok (0xF0 + n / 262144) (0x80 + n / 4096 % 64) = true := by
          unfold cont4Ok
          by_cases hF0 : 0xF0 + n / 262144 = 0xF0
          · rw [if_pos hF0]
            simp only [Bool.and_eq_true, decide_eq_true_eq]
            omega
          · rw [if_neg hF0]
            by_cases hF4 : 0xF0 + n / 262144 = 0xF4
            · rw [if_pos hF4]
              simp only [Bool.and_eq_true, decide_eq_true_eq]
              omega
            · rw [if_neg hF4]
              exact isCont_of _ (by omega) (by omega)
        rw [utf8Decode_four _ _ _ _ bs (by omega) hc4
          (isCont_of _ (by omega) (by omega)) (isCont_of _ (by omega) (by omega))]
        congr 1
        omega

theorem utf8Encode_cons (c : Nat) (s : PyStr) :
    utf8Encode (c :: s) = utf8EncChar c ++ utf8Encode s := rfl

/-- Decoding after encoding is the identity on strings of scalar values. -/
theorem utf8Decode_encode (s : PyStr) (h : ∀ c ∈ s, ValidCp c) :
    utf8Decode (utf8Encode s) = s := by
  induction s with
  | nil => rfl
  | cons c rest ih =>
    rw [utf8Encode_cons, utf8_rt c (h c (by simp)) (utf8Encode rest)]
    rw [ih (fun x hx => h x (by simp [hx]))]

theorem utf8Decode_single_hi (b : Nat) (h : ¬ b < 0x80) : utf8Decode [b] = [0xFFFD] := by
  conv_lhs => rw [utf8Decode]
  rw [if_neg h]

theorem utf8Decode_two_bad (b b1 : Nat) (bs : List Nat)
    (hb : 0xC2 ≤ b ∧ b ≤ 0xDF) (h1 : ¬ isCont b1 = true) :
    utf8Decode (b :: b1 :: bs) = 0xFFFD :: utf8Decode (b1 :: bs) := by
  match bs with
  | [] =>
    show utf8Decode [b, b1] = _
    conv_lhs => rw [utf8Decode]
    rw [if_neg (by omega), if_pos hb, if_neg h1]
  | [c] =>
    show utf8Decode [b, b1, c] = _
    conv_lhs => rw [utf8Decode]
    rw [if_neg (by omega), if_pos hb, if_neg h1]
  | c :: d :: rest =>
    show utf8Decode (b :: b1 :: c :: d :: rest) = _
    conv_lhs => rw [utf8Decode]
    rw [if_neg (by omega), if_pos hb, if_neg h1]

theorem utf8Decode_three_bad1 (b b1 : Nat) (bs : List Nat)
    (hb : 0xE0 ≤ b ∧ b ≤ 0xEF) (h1 : ¬ cont3Ok b b1 = true) :
    utf8Decode (b :: b1 :: bs) = 0xFFFD :: utf8Decode (b1 :: bs) := by
  match bs with
  | [] =>
    show utf8Decode [b, b1] = _
    conv_lhs => rw [utf8Decode]
    rw [if_neg (by omega), if_neg (by omega), if_pos hb, if_neg h1]
  | [c] =>
    show utf8Decode [b, b1, c] = _
    conv_lhs => rw [utf8Decode]
    rw [if_neg (by omega), if_neg (by omega), if_pos hb, if_neg h1]
  | c :: d :: rest =>
    show utf8Decode (b :: b1 :: c :: d :: rest) = _
    conv_lhs => rw [utf8Decode]
    rw [if_neg (by omega), if_neg (by omega), if_pos hb, if_neg h1]

theorem utf8Decode_three_short (b b1 : Nat)
    (hb : 0xE0 ≤ b ∧ b ≤ 0xEF) (h1 : cont3Ok b b1 = true) :
    utf8Decode [b, b1] = [0xFFFD] := by
  conv_lhs => rw [utf8Decode]
  rw [if_neg (by omega), if_neg (by omega), if_pos hb, if_pos h1]

theorem utf8Decode_three_bad2 (b b1 b2 : Nat) (bs : List Nat)
    (hb : 0xE0 ≤ b ∧ b ≤ 0xEF) (h1 : cont3Ok b b1 = true) (h2 : ¬ isCont b2 = true) :
    utf8Decode (b :: b1 :: b2 :: bs) = 0xFFFD :: utf8Decode (b2 :: bs) := by
  match bs with
  | [] =>
    show utf8Decode [b, b1, b2] = _
    conv_lhs => rw [utf8Decode]
    rw [if_neg (by omega), if_neg (by omega), if_pos hb, if_pos h1, if_neg h2]
  | c :: rest =>
    show utf8Decode (b :: b1 :: b2 :: c :: rest) = _
    conv_lhs => rw [utf8Decode]
    rw [if_neg (by omega), if_neg (by omega), if_pos hb, if_pos h1, if_neg h2]

theorem utf8Decode_four_bad1 (b b1 : Nat) (bs : List Nat)
    (hb : 0xF0 ≤ b ∧ b ≤ 0xF4) (h1 : ¬ cont4Ok b b1 = true) :
    utf8Decode (b :: b1 :: bs) = 0xFFFD :: utf8Decode (b1 :: bs) := by
  match bs with
  | [] =>
    show utf8Decode [b, b1] = _
    conv_lhs => rw [utf8Decode]
    rw [if_neg (by omega), if_neg (by omega), if_neg (by omega), if_pos hb, if_neg h1]
  | [c] =>
    show utf8Decode [b, b1, c] = _
    conv_lhs => rw [utf8Decode]
    rw [if_neg (by omega), if_neg (by omega), if_neg (by omega), if_pos hb, if_neg h1]
  | c :: d :: rest =>
    show utf8Decode (b :: b1 :: c :: d :: rest) = _
    conv_lhs => rw [utf8Decode]
    rw [if_neg (by omega), if_neg (by omega), if_neg (by omega), if_pos hb, if_neg h1]

theorem utf8Decode_four_short2 (b b1 : Nat)
    (hb : 0xF0 ≤ b ∧ b ≤ 0xF4) (h1 : cont4Ok b b1 = true) :
    utf8Decode [b, b1] = [0xFFFD] := by
  conv_lhs => rw [utf8Decode]
  rw [if_neg (by omega), if_neg (by omega), if_neg (by omega), if_pos hb, if_pos h1]

theorem utf8Decode_four_short3 (b b1 b2 : Nat)
    (hb : 0xF0 ≤ b ∧ b ≤ 0xF4) (h1 : cont4Ok b b1 = true) (h2 : isCont b2 = true) :
    utf8Decode [b, b1, b2] = [0xFFFD] := by
  conv_lhs => rw [utf8Decode]
  rw [if_neg (by omega), if_neg (by omega), if_neg (by omega), if_pos hb, if_pos h1, if_pos h2]

theorem utf8Decode_four_bad2 (b b1 b2 : Nat) (bs : List Nat)
    (hb : 0xF0 ≤ b ∧ b ≤ 0xF4) (h1 : cont4Ok b b1 = true) (h2 : ¬ isCont b2 = true) :
    utf8Decode (b :: b1 :: b2 :: bs) = 0xFFFD :: utf8Decode (b2 :: bs) := by
  match bs with
  | [] =>
    show utf8Decode [b, b1, b2] = _
    conv_lhs => rw [utf8Decode]
    rw [if_neg (by omega), if_neg (by omega), if_neg (by omega), if_pos hb, if_pos h1,
      if_neg h2]
  | c :: rest =>
    show utf8Decode (b :: b1 :: b2 :: c :: rest) = _
    conv_lhs => rw [utf8Decode]
    rw [if_neg (by omega), if_neg (by omega), if_neg (by omega), if_pos hb, if_pos h1,
      if_neg h2]

theorem utf8Decode_four_bad3 (b b1 b2 b3 : Nat) (bs : List Nat)
    (hb : 0xF0 ≤ b ∧ b ≤ 0xF4) (h1 : cont4Ok b b1 = true) (h2 : isCont b2 = true)
    (h3 : ¬ isCont b3 = true) :
    utf8Decode (b :: b1 :: b2 :: b3 :: bs) = 0xFFFD :: utf8Decode (b3 :: bs) := by
  conv_lhs => rw [utf8Decode]
  rw [if_neg (by omega), if_neg (by omega), if_neg (by omega), if_pos hb, if_pos h1,
    if_pos h2, if_neg h3]

theorem utf8Decode_bad_lead (b : Nat) (bs : List Nat)
    (h0 : ¬ b < 0x80) (h2 : ¬ (0xC2 ≤ b ∧ b ≤ 0xDF)) (h3 : ¬ (0xE0 ≤ b ∧ b ≤ 0xEF))
    (h4 : ¬ (0xF0 ≤ b ∧ b ≤ 0xF4)) :
    utf8Decode (b :: bs) = 0xFFFD :: utf8Decode bs := by
  match bs with
  | [] =>
    show utf8Decode [b] = _
    conv_lhs => rw [utf8Decode]
    rw [if_neg h0]
    rfl
  | [c] =>
    show utf8Decode [b, c] = _
    conv_lhs => rw [utf8Decode]
    rw [if_neg h0, if_neg h2, if_neg h3, if_neg h4]
  | [c, d] =>
    show utf8Decode [b, c, d] = _
    conv_lhs => rw [utf8Decode]
    rw [if_neg h0, if_neg h2, if_neg h3, if_neg h4]
  | c :: d :: e :: rest =>
    show utf8Decode (b :: c :: d :: e :: rest) = _
    conv_lhs => rw [utf8Decode]
    rw [if_neg h0, if_neg h2, if_neg h3, if_neg h4]

theorem valid_FFFD : ValidCp 0xFFFD := by decide

theorem valid_two (b b1 : Nat) (hb : 0xC2 ≤ b ∧ b ≤ 0xDF) (h1 : isCont b1 = true) :
    ValidCp ((b - 0xC0) * 64 + (b1 - 0x80)) := by
  have := isCont_bounds _ h1
  unfold ValidCp
  omega

theorem valid_three (b b1 b2 : Nat) (hb : 0xE0 ≤ b ∧ b ≤ 0xEF)
    (h1 : cont3Ok b b1 = true) (h2 : isCont b2 = true) :
    ValidCp ((b - 0xE0) * 4096 + (b1 - 0x80) * 64 + (b2 - 0x80)) := by
  have hb1 := cont3Ok_bounds _ _ h1
  have hb2 := isCont_bounds _ h2
  unfold ValidCp
  rcases eq_or_ne b 0xED with he | hne
  · have := hb1.2.2.2 he
    omega
  · omega

theorem valid_four (b b1 b2 b3 : Nat) (hb : 0xF0 ≤ b ∧ b ≤ 0xF4)
    (h1 : cont4Ok b b1 = true) (h2 : isCont b2 = true) (h3 : isCont b3 = true) :
    ValidCp ((b - 0xF0) * 262144 + (b1 - 0x80) * 4096 + (b2 - 0x80) * 64 + (b3 - 0x80)) := by
  have hb1 := cont4Ok_bounds _ _ h1
  have hb2 := isCont_bounds _ h2
  have hb3 := isCont_bounds _ h3
  unfold ValidCp
  rcases eq_or_ne b 0xF4 with he | hne
  · have := hb1.2.2.2 he
    omega
  · omega

set_option maxRecDepth 8000 in
theorem utf8Decode_valid_aux (n : Nat) :
    ∀ (bs : List Nat), bs.length ≤ n → ∀ c ∈ utf8Decode bs, ValidCp c := by
  induction n with
  | zero =>
    intro bs hb c hc
    rcases bs with _ | ⟨b, rest⟩
    · simp [utf8Decode] at hc
    · simp at hb
  | succ n ih =>
    intro bs hb c hc
    rcases bs with _ | ⟨b, rest⟩
    · simp [utf8Decode] at hc
    · have hr : rest.length ≤ n := by simp at hb; omega
      by_cases h0 : b < 0x80
      · rw [utf8Decode_one b rest h0] at hc
        rcases List.mem_cons.mp hc with rfl | hc
        · exact ⟨by omega, by omega⟩
        · exact ih rest hr c hc
      · by_cases hB2 : 0xC2 ≤ b ∧ b ≤ 0xDF
        · rcases rest with _ | ⟨b1, rest2⟩
          · rw [utf8Decode_single_hi b h0] at hc
            simp at hc
            subst hc
            exact valid_FFFD
          · by_cases h1 : isCont b1 = true
            · rw [utf8Decode_two b b1 rest2 hB2 h1] at hc
              rcases List.mem_cons.mp hc with rfl | hc
              · exact valid_two b b1 hB2 h1
              · exact ih rest2 (by simp at hb; omega) c hc
            · rw [utf8Decode_two_bad b b1 rest2 hB2 h1] at hc
              rcases List.mem_cons.mp hc with rfl | hc
              · exact valid_FFFD
              · exact ih (b1 :: rest2) hr c hc
        · by_cases hB3 : 0xE0 ≤ b ∧ b ≤ 0xEF
          · rcases rest with _ | ⟨b1, rest2⟩
            · rw [utf8Decode_single_hi b h0] at hc
              simp at hc
              subst hc
              exact valid_FFFD
            · by_cases h1 : cont3Ok b b1 = true
              · rcases rest2 with _ | ⟨b2, rest3⟩
                · rw [utf8Decode_three_short b b1 hB3 h1] at hc
                  simp at hc
                  subst hc
                  exact valid_FFFD
                · by_cases h2 : isCont b2 = true
                  · rw [utf8Decode_three b b1 b2 rest3 hB3 h1 h2] at hc
                    rcases List.mem_cons.mp hc with rfl | hc
                    · exact valid_three b b1 b2 hB3 h1 h2
                    · exact ih rest3 (by simp at hb; omega) c hc
                  · rw [utf8Decode_three_bad2 b b1 b2 rest3 hB3 h1 h2] at hc
                    rcases List.mem_cons.mp hc with rfl | hc
                    · exact valid_FFFD
                    · exact ih (b2 :: rest3) (by simp at hb ⊢; omega) c hc
              · rw [utf8Decode_three_bad1 b b1 rest2 hB3 h1] at hc
                rcases List.mem_cons.mp hc with rfl | hc
                · exact valid_FFFD
                · exact ih (b1 :: rest2) hr c hc
          · by_cases hB4 : 0xF0 ≤ b ∧ b ≤ 0xF4
            · rcases rest with _ | ⟨b1, rest2⟩
              · rw [utf8Decode_single_hi b h0] at hc
                simp at hc
                subst hc
                exact valid_FFFD
              · by_cases h1 : cont4Ok b b1 = true
                · rcases rest2 with _ | ⟨b2, rest3⟩
                  · rw [utf8Decode_four_short2 b b1 hB4 h1] at hc
                    simp at hc
                    subst hc
                    exact valid_FFFD
                  · by_cases h2 : isCont b2 = true
                    · rcases rest3 with _ | ⟨b3, rest4⟩
                      · rw [utf8Decode_four_short3 b b1 b2 hB4 h1 h2] at hc
                        simp at hc
                        subst hc
                        exact valid_FFFD
                      · by_cases h3 : isCont b3 = true
                        · rw [utf8Decode_four b b1 b2 b3 rest4 hB4 h1 h2 h3] at hc
                          rcases List.mem_cons.mp hc with rfl | hc
                          · exact valid_four b b1 b2 b3 hB4 h1 h2 h3
                          · exact ih rest4 (by simp at hb; omega) c hc
                        · rw [utf8Decode_four_bad3 b b1 b2 b3 rest4 hB4 h1 h2 h3] at hc
                          rcases List.mem_cons.mp hc with rfl | hc
                          · exact valid_FFFD
                          · exact ih (b3 :: rest4) (by simp at hb ⊢; omega) c hc
                    · rw [utf8Decode_four_bad2 b b1 b2 rest3 hB4 h1 h2] at hc
                      rcases List.mem_cons.mp hc with rfl | hc
                      · exact valid_FFFD
                      · exact ih (b2 :: rest3) (by simp at hb ⊢; omega) c hc
                · rw [utf8Decode_four_bad1 b b1 rest2 hB4 h1] at hc
                  rcases List.mem_cons.mp hc with rfl | hc
                  · exact valid_FFFD
                  · exact ih (b1 :: rest2) hr c hc
            · rw [utf8Decode_bad_lead b rest h0 hB2 hB3 hB4] at hc
              rcases List.mem_cons.mp hc with rfl | hc
              · exact valid_FFFD
              · exact ih rest hr c hc

theorem utf8Decode_valid (bs : List Nat) : ∀ c ∈ utf8Decode bs, ValidCp c :=
  utf8Decode_valid_aux bs.length bs le_rfl

/-! ## Generic list helpers for the idempotence proof -/

theorem takeWhile_app_all (p : Nat → Bool) (xs ys : List Nat) (h : ∀ x ∈ xs, p x = true) :
    (xs ++ ys).takeWhile p = xs ++ ys.takeWhile p := by
  induction xs with
  | nil => simp
  | cons c rest ih =>
    simp only [List.cons_append, List.takeWhile_cons]
    rw [h c (by simp)]
    simp only [if_true]
    rw [ih (fun x hx => h x (by simp [hx]))]

theorem dropWhile_app_all (p : Nat → Bool) (xs ys : List Nat) (h : ∀ x ∈ xs, p x = true) :
    (xs ++ ys).dropWhile p = ys.dropWhile p := by
  induction xs with
  | nil => simp
  | cons c rest ih =>
    simp only [List.cons_append, List.dropWhile_cons]
    rw [h c (by simp)]
    simp only [if_true]
    exact ih (fun x hx => h x (by simp [hx]))

theorem takeWhile_app_stop (p : Nat → Bool) (xs ys : List Nat)
    (h : ∃ x ∈ xs, p x = false) : (xs ++ ys).takeWhile p = xs.takeWhile p := by
  induction xs with
  | nil => simp at h
  | cons c rest ih =>
    by_cases hc : p c = true
    · obtain ⟨x, hx, hpx⟩ := h
      have hxr : x ∈ rest := by
        rcases List.mem_cons.mp hx with rfl | hxr
        · rw [hc] at hpx; cases hpx
        · exact hxr
      simp only [List.cons_append, List.takeWhile_cons, hc, if_true]
      rw [ih ⟨x, hxr, hpx⟩]
    · simp only [List.cons_append, List.takeWhile_cons]
      rw [Bool.not_eq_true] at hc
      rw [hc]
      simp

theorem dropWhile_app_stop (p : Nat → Bool) (xs ys : List Nat)
    (h : ∃ x ∈ xs, p x = false) : (xs ++ ys).dropWhile p = xs.dropWhile p ++ ys := by
  induction xs with
  | nil => simp at h
  | cons c rest ih =>
    by_cases hc : p c = true
    · obtain ⟨x, hx, hpx⟩ := h
      have hxr : x ∈ rest := by
        rcases List.mem_cons.mp hx with rfl | hxr
        · rw [hc] at hpx; cases hpx
        · exact hxr
      simp only [List.cons_append, List.dropWhile_cons, hc, if_true]
      exact ih ⟨x, hxr, hpx⟩
    · simp only [List.cons_append, List.dropWhile_cons]
      rw [Bool.not_eq_true] at hc
      rw [hc]
      simp

theorem dropWhile_of_takeWhile_nil (p : Nat → Bool) (l : List Nat)
    (h : l.takeWhile p = []) : l.dropWhile p = l := by
  cases l with
  | nil => rfl
  | cons c rest =>
    rw [List.takeWhile_cons] at h
    split at h
    · simp at h
    · next hc => simp [List.dropWhile_cons, hc]

theorem length_takeWhile_lt_of (p : Nat → Bool) (l : List Nat) (a : Nat)
    (h : a ∈ l) (hp : p a = false) : (l.takeWhile p).length < l.length := by
  induction l with
  | nil => simp at h
  | cons c rest ih =>
    by_cases hc : p c = true
    · have har : a ∈ rest := by
        rcases List.mem_cons.mp h with rfl | har
        · rw [hc] at hp; cases hp
        · exact har
      simp only [List.takeWhile_cons, hc, if_true, List.length_cons]
      have := ih har
      omega
    · rw [Bool.not_eq_true] at hc
      simp [List.takeWhile_cons, hc]

theorem mem_contains (l : List Nat) (a : Nat) : l.contains a = true ↔ a ∈ l := by
  simp [List.contains, List.elem_iff]

theorem filterMap_id_of {a : Type} (f : a → Option a) (l : List a)
    (h : ∀ x ∈ l, f x = some x) : l.filterMap f = l := by
  induction l with
  | nil => rfl
  | cons c rest ih =>
    rw [List.filterMap_cons, h c (by simp)]
    rw [ih (fun x hx => h x (by simp [hx]))]

/-! ## Character classes of `quote_plus` output -/

theorem hexUp_facts (k : Nat) (h : k < 16) :
    (48 ≤ hexUp k ∧ hexUp k ≤ 57) ∨ (65 ≤ hexUp k ∧ hexUp k ≤ 70) := by
  unfold hexUp
  by_cases hk : k < 10
  · rw [if_pos hk]; omega
  · rw [if_neg hk]; omega

theorem isHexDigit_hexUp (k : Nat) (h : k < 16) : isHexDigit (hexUp k) = true := by
  rcases hexUp_facts k h with ⟨h1, h2⟩ | ⟨h1, h2⟩ <;>
    simp [isHexDigit, isAsciiDigit] <;> omega

theorem hexVal_hexUp (k : Nat) (h : k < 16) : hexVal (hexUp k) = k := by
  unfold hexVal hexUp
  by_cases hk : k < 10
  · rw [if_pos hk, if_pos (by omega)]
    omega
  · rw [if_neg hk, if_neg (by omega), if_pos (by omega)]
    omega

theorem isSafeByte_facts (b : Nat) (h : isSafeByte b = true) :
    32 < b ∧ b < 128 ∧ b ≠ 37 ∧ b ≠ 43 ∧ b ∉ ([9, 10, 13, 38, 61, 35, 63, 58, 47] : List Nat) := by
  simp only [isSafeByte, isAsciiAlnum, isAsciiDigit, isAsciiAlpha, Bool.or_eq_true,
    beq_iff_eq, decide_eq_true_eq, Bool.and_eq_true] at h
  refine ⟨by omega, by omega, by omega, by omega, by simp; omega⟩

/-- Every character emitted by `quoteByte` on a byte is printable ASCII and
none of the characters the URL grammar branches on. -/
theorem mem_quoteByte (b x : Nat) (hb : b < 256) (hx : x ∈ quoteByte b) :
    32 < x ∧ x < 128 ∧ x ∉ ([9, 10, 13, 38, 61, 35, 63, 58, 47] : List Nat) := by
  unfold quoteByte at hx
  by_cases hs : isSafeByte b = true
  · rw [if_pos hs] at hx
    simp at hx
    rw [hx]
    obtain ⟨h1, h2, _, _, h5⟩ := isSafeByte_facts b hs
    exact ⟨h1, h2, h5⟩
  · rw [if_neg hs] at hx
    by_cases h32 : b = 32
    · rw [if_pos h32] at hx
      simp at hx
      subst hx
      refine ⟨by omega, by omega, by simp⟩
    · rw [if_neg h32] at hx
      simp at hx
      rcases hx with rfl | rfl | rfl
      · refine ⟨by omega, by omega, by simp⟩
      · rcases hexUp_facts (b / 16) (by omega) with ⟨h1, h2⟩ | ⟨h1, h2⟩ <;>
          refine ⟨by omega, by omega, by simp <;> omega⟩
      · rcases hexUp_facts (b % 16) (by omega) with ⟨h1, h2⟩ | ⟨h1, h2⟩ <;>
          refine ⟨by omega, by omega, by simp <;> omega⟩

theorem utf8EncChar_lt256 (n : Nat) (h : n < 0x110000) :
    ∀ b ∈ utf8EncChar n, b < 256 := by
  intro b hb
  unfold utf8EncChar at hb
  by_cases h1 : n < 0x80
  · rw [if_pos h1] at hb; simp at hb; omega
  · rw [if_neg h1] at hb
    by_cases h2 : n < 0x800
    · rw [if_pos h2] at hb
      simp at hb
      rcases hb with rfl | rfl <;> omega
    · rw [if_neg h2] at hb
      by_cases h3 : n < 0x10000
      · rw [if_pos h3] at hb
        simp at hb
        rcases hb with rfl | rfl | rfl <;> omega
      · rw [if_neg h3] at hb
        simp at hb
        rcases hb with rfl | rfl | rfl | rfl <;> omega

theorem mem_utf8Encode (s : PyStr) (b : Nat) (hb : b ∈ utf8Encode s) :
    ∃ c ∈ s, b ∈ utf8EncChar c := by
  induction s with
  | nil => simp [utf8Encode] at hb
  | cons c rest ih =>
    rw [utf8Encode_cons] at hb
    rcases List.mem_append.mp hb with h | h
    · exact ⟨c, by simp, h⟩
    · obtain ⟨d, hd, hbd⟩ := ih h
      exact ⟨d, by simp [hd], hbd⟩

theorem mem_utf8Encode_lt256 (s : PyStr) (hs : ∀ c ∈ s, c < 0x110000) :
    ∀ b ∈ utf8Encode s, b < 256 := by
  intro b hb
  obtain ⟨c, hc, hbc⟩ := mem_utf8Encode s b hb
  exact utf8EncChar_lt256 c (hs c hc) b hbc

theorem mem_foldr_quoteByte (bytes : List Nat) (x : Nat)
    (hx : x ∈ bytes.foldr (fun b acc => quoteByte b ++ acc) []) :
    ∃ b ∈ bytes, x ∈ quoteByte b := by
  induction bytes with
  | nil => simp at hx
  | cons b rest ih =>
    simp only [List.foldr_cons] at hx
    rcases List.mem_append.mp hx with h | h
    · exact ⟨b, by simp, h⟩
    · obtain ⟨d, hd, hxd⟩ := ih h
      exact ⟨d, by simp [hd], hxd⟩

/-- Characters of `quotePlus s` (for a string of code points below the
Unicode bound): printable ASCII, none of the reserved delimiters. -/
theorem mem_quotePlus (s : PyStr) (hs : ∀ c ∈ s, c < 0x110000) (x : Nat)
    (hx : x ∈ quotePlus s) :
    32 < x ∧ x < 128 ∧ x ∉ ([9, 10, 13, 38, 61, 35, 63, 58, 47] : List Nat) := by
  obtain ⟨b, hb, hxb⟩ := mem_foldr_quoteByte (utf8Encode s) x hx
  exact mem_quoteByte b x (mem_utf8Encode_lt256 s hs b hb) hxb

/-! ## The quote / unquote round trip -/

theorem isSafeByte_ne_43 (b : Nat) (h : isSafeByte b = true) : b ≠ 43 :=
  (isSafeByte_facts b h).2.2.2.1

theorem plusToSpace_append (a b : PyStr) :
    plusToSpace (a ++ b) = plusToSpace a ++ plusToSpace b := List.map_append _ a b

theorem plusToSpace_quoteByte (b : Nat) (hb : b < 256) :
    plusToSpace (quoteByte b) =
      if isSafeByte b then [b]
      else if b = 32 then [32]
      else [37, hexUp (b / 16), hexUp (b % 16)] := by
  unfold quoteByte plusToSpace
  by_cases hs : isSafeByte b = true
  · rw [if_pos hs, if_pos hs]
    simp [if_neg (isSafeByte_ne_43 b hs)]
  · rw [if_neg hs, if_neg hs]
    by_cases h32 : b = 32
    · rw [if_pos h32, if_pos h32]
      simp
    · rw [if_neg h32, if_neg h32]
      have e1 : hexUp (b / 16) ≠ 43 := by
        rcases hexUp_facts (b / 16) (by omega) with ⟨h1, h2⟩ | ⟨h1, h2⟩ <;> omega
      have e2 : hexUp (b % 16) ≠ 43 := by
        rcases hexUp_facts (b % 16) (by omega) with ⟨h1, h2⟩ | ⟨h1, h2⟩ <;> omega
      simp [e1, e2]

theorem percentBytes_cons_ne37 (b : Nat) (rest : List Nat) (hb : b ≠ 37) :
    percentBytes (b :: rest) = b :: percentBytes rest := by
  conv_lhs => rw [percentBytes.eq_def]
  split
  · rename_i heq
    cases heq
  · rename_i heq
    injection heq with h1 h2
    exact absurd h1 hb
  · rename_i heq
    injection heq with h1 h2
    exact absurd h1 hb
  · rename_i heq
    injection heq with h1 h2
    subst h1
    subst h2
    rfl

theorem percentBytes_hex (a b : Nat) (rest : List Nat)
    (ha : isHexDigit a = true) (hb : isHexDigit b = true) :
    percentBytes (37 :: a :: b :: rest) = (hexVal a * 16 + hexVal b) :: percentBytes rest := by
  conv_lhs => rw [percentBytes]
  rw [if_pos (by simp [ha, hb])]

theorem percentBytes_token (b : Nat) (rest : List Nat) (hb : b < 256) :
    percentBytes (plusToSpace (quoteByte b) ++ rest) = b :: percentBytes rest := by
  rw [plusToSpace_quoteByte b hb]
  by_cases hs : isSafeByte b = true
  · rw [if_pos hs]
    exact percentBytes_cons_ne37 b rest (isSafeByte_facts b hs).2.2.1
  · rw [if_neg hs]
    by_cases h32 : b = 32
    · rw [if_pos h32, h32]
      exact percentBytes_cons_ne37 32 rest (by omega)
    · rw [if_neg h32]
      show percentBytes (37 :: hexUp (b / 16) :: hexUp (b % 16) :: rest) = _
      rw [percentBytes_hex _ _ rest (isHexDigit_hexUp _ (by omega)) (isHexDigit_hexUp _ (by omega))]
      rw [hexVal_hexUp _ (by omega), hexVal_hexUp _ (by omega)]
      congr 1
      omega

theorem percentBytes_roundtrip (bytes : List Nat) (h : ∀ b ∈ bytes, b < 256) :
    percentBytes (plusToSpace (bytes.foldr (fun b acc => quoteByte b ++ acc) [])) = bytes := by
  induction bytes with
  | nil => rfl
  | cons b rest ih =>
    simp only [List.foldr_cons]
    rw [plusToSpace_append, percentBytes_token b _ (h b (by simp))]
    rw [ih (fun x hx => h x (by simp [hx]))]

theorem percent_quotePlus (s : PyStr) (h : ∀ c ∈ s, c < 0x110000) :
    percentBytes (plusToSpace (quotePlus s)) = utf8Encode s :=
  percentBytes_roundtrip (utf8Encode s) (mem_utf8Encode_lt256 s h)

theorem unquoteGo_ascii (s : PyStr) (run : List Nat) (h : ∀ c ∈ s, c < 0x80) :
    unquoteGo run s = utf8Decode (percentBytes (run.reverse ++ s)) := by
  induction s generalizing run with
  | nil => simp [unquoteGo]
  | cons c rest ih =>
    rw [unquoteGo, if_pos (h c (by simp))]
    rw [ih (c :: run) (fun x hx => h x (by simp [hx]))]
    simp

theorem pyUnquote_ascii (s : PyStr) (h : ∀ c ∈ s, c < 0x80) :
    pyUnquote s = utf8Decode (percentBytes s) := by
  unfold pyUnquote
  rw [unquoteGo_ascii s [] h]
  simp

theorem mem_plusToSpace (s : PyStr) (x : Nat) (hx : x ∈ plusToSpace s) :
    x = 32 ∨ x ∈ s := by
  unfold plusToSpace at hx
  obtain ⟨c, hc, he⟩ := List.mem_map.mp hx
  by_cases h43 : c = 43
  · rw [if_pos h43] at he
    exact Or.inl he.symm
  · rw [if_neg h43] at he
    exact Or.inr (he ▸ hc)

/-- `parse_qsl`-style unquoting undoes `quote_plus` on every string of valid
scalar values. -/
theorem unqPlus_quotePlus (s : PyStr) (hv : ∀ c ∈ s, ValidCp c) :
    unqPlus (quotePlus s) = s := by
  unfold unqPlus
  rw [pyUnquote_ascii _ (fun x hx => by
    rcases mem_plusToSpace _ x hx with rfl | hx2
    · omega
    · exact (mem_quotePlus s (fun c hc => (hv c hc).1) x hx2).2.1)]
  rw [percent_quotePlus s (fun c hc => (hv c hc).1)]
  exact utf8Decode_encode s hv

theorem unquoteGo_valid (s : PyStr) (run : List Nat) (h : ∀ c ∈ s, ValidCp c) :
    ∀ c ∈ unquoteGo run s, ValidCp c := by
  induction s generalizing run with
  | nil =>
    intro c hc
    rw [unquoteGo] at hc
    exact utf8Decode_valid _ c hc
  | cons d rest ih =>
    intro c hc
    rw [unquoteGo] at hc
    by_cases hd : d < 0x80
    · rw [if_pos hd] at hc
      exact ih (d :: run) (fun x hx => h x (by simp [hx])) c hc
    · rw [if_neg hd] at hc
      rcases List.mem_append.mp hc with h1 | h1
      · exact utf8Decode_valid _ c h1
      · rcases List.mem_cons.mp h1 with rfl | h2
        · exact h c (by simp)
        · exact ih [] (fun x hx => h x (by simp [hx])) c h2

theorem mem_unqPlus_valid (s : PyStr) (hv : ∀ c ∈ s, ValidCp c) :
    ∀ c ∈ unqPlus s, ValidCp c := by
  intro c hc
  apply unquoteGo_valid (plusToSpace s) [] _ c hc
  intro x hx
  rcases mem_plusToSpace s x hx with rfl | hx2
  · exact ⟨by omega, by omega⟩
  · exact hv x hx2

/-! ## `parse_qsl` undoes `urlencode` -/

theorem splitSep_ne_nil (sep : Nat) (l : List Nat) : splitSep sep l ≠ [] := by
  cases l with
  | nil => simp [splitSep]
  | cons c rest =>
    rw [splitSep]
    by_cases hc : c = sep
    · rw [if_pos hc]
      simp
    · rw [if_neg hc]
      split <;> simp

theorem splitSep_no (sep : Nat) (p : List Nat) (h : sep ∉ p) : splitSep sep p = [p] := by
  induction p with
  | nil => rfl
  | cons c rest ih =>
    rw [splitSep, if_neg (by intro hc; exact h (by simp [hc]))]
    rw [ih (fun hm => h (by simp [hm]))]

theorem splitSep_app (sep : Nat) (p t : List Nat) (h : sep ∉ p) :
    splitSep sep (p ++ sep :: t) = p :: splitSep sep t := by
  induction p with
  | nil =>
    show splitSep sep (sep :: t) = _
    rw [splitSep, if_pos rfl]
  | cons c rest ih =>
    show splitSep sep (c :: (rest ++ sep :: t)) = _
    rw [splitSep, if_neg (by intro hc; exact h (by simp [hc]))]
    rw [ih (fun hm => h (by simp [hm]))]

theorem splitSep_joinAmp (parts : List PyStr) (h : ∀ p ∈ parts, 38 ∉ p)
    (hne : parts ≠ []) : splitSep 38 (joinAmp parts) = parts := by
  induction parts with
  | nil => exact absurd rfl hne
  | cons p rest ih =>
    cases rest with
    | nil => exact splitSep_no 38 p (h p (by simp))
    | cons q rest2 =>
      rw [joinAmp]
      rw [splitSep_app 38 p _ (h p (by simp))]
      rw [ih (fun x hx => h x (by simp [hx])) (by simp)]

theorem joinAmp_cons (p : PyStr) (rest : List PyStr) :
    ∃ t, joinAmp (p :: rest) = p ++ t := by
  cases rest with
  | nil => exact ⟨[], by simp [joinAmp]⟩
  | cons q rest2 => exact ⟨38 :: joinAmp (q :: rest2), rfl⟩

theorem mem_splitSep (sep : Nat) (l seg : List Nat) (hseg : seg ∈ splitSep sep l) :
    ∀ c ∈ seg, c ∈ l := by
  induction l generalizing seg with
  | nil =>
    simp [splitSep] at hseg
    subst hseg
    simp
  | cons d rest ih =>
    rw [splitSep] at hseg
    by_cases hd : d = sep
    · rw [if_pos hd] at hseg
      rcases List.mem_cons.mp hseg with rfl | hs2
      · simp
      · intro c hc
        exact List.mem_cons_of_mem d (ih seg hs2 c hc)
    · rw [if_neg hd] at hseg
      rcases he : splitSep sep rest with _ | ⟨p, ps⟩
      · exact absurd he (splitSep_ne_nil sep rest)
      · rw [he] at hseg
        rcases List.mem_cons.mp hseg with rfl | hs2
        · intro c hc
          rcases List.mem_cons.mp hc with rfl | hc2
          · simp
          · exact List.mem_cons_of_mem d (ih p (by rw [he]; simp) c hc2)
        · intro c hc
          exact List.mem_cons_of_mem d (ih seg (by rw [he]; simp [hs2]) c hc)

/-- One encoded pair decodes back to itself. -/
theorem parseQsl_seg (kv : PyStr × PyStr)
    (h1 : ∀ c ∈ kv.1, ValidCp c) (h2 : ∀ c ∈ kv.2, ValidCp c) :
    (fun seg : PyStr =>
        if seg = [] then none
        else if seg.contains 61 then
          some (unqPlus (seg.takeWhile (· != 61)), unqPlus ((seg.dropWhile (· != 61)).tail))
        else some (unqPlus seg, unqPlus ([] : PyStr)))
      (quotePlus kv.1 ++ 61 :: quotePlus kv.2) = some kv := by
  have hk61 : ∀ x ∈ quotePlus kv.1, (x != 61) = true := by
    intro x hx
    have := (mem_quotePlus kv.1 (fun c hc => (h1 c hc).1) x hx).2.2
    simp at this ⊢
    omega
  have hne : quotePlus kv.1 ++ 61 :: quotePlus kv.2 ≠ [] := by simp
  have hc61 : (quotePlus kv.1 ++ 61 :: quotePlus kv.2).contains 61 = true := by
    rw [mem_contains]
    simp
  simp only [hne, if_neg, hc61, if_pos, if_true, if_false]
  rw [takeWhile_app_all _ _ _ hk61]
  rw [dropWhile_app_all _ _ _ hk61]
  rw [List.takeWhile_cons]
  rw [List.dropWhile_cons]
  simp only [bne_self_eq_false, Bool.false_eq_true, if_false, List.append_nil, List.tail_cons]
  rw [unqPlus_quotePlus kv.1 h1, unqPlus_quotePlus kv.2 h2]

/-- `parse_qsl` is a left inverse of `urlencode` on lists of pairs of valid
scalar strings. -/
theorem parseQsl_urlencode (q : List (PyStr × PyStr))
    (h : ∀ kv ∈ q, (∀ c ∈ kv.1, ValidCp c) ∧ (∀ c ∈ kv.2, ValidCp c)) :
    parseQsl (urlencodePairs q) = q := by
  cases q with
  | nil => rfl
  | cons kv0 rest =>
    unfold parseQsl urlencodePairs
    have hqs : joinAmp ((kv0 :: rest).map fun kv => quotePlus kv.1 ++ 61 :: quotePlus kv.2) ≠ [] := by
      obtain ⟨t, ht⟩ := joinAmp_cons (quotePlus kv0.1 ++ 61 :: quotePlus kv0.2)
        (rest.map fun kv => quotePlus kv.1 ++ 61 :: quotePlus kv.2)
      rw [List.map_cons, ht]
      simp
    rw [if_neg hqs]
    rw [splitSep_joinAmp _ (by
      intro p hp
      obtain ⟨kv, hkv, he⟩ := List.mem_map.mp hp
      subst he
      intro hm
      rcases List.mem_append.mp hm with hm1 | hm1
      · have := (mem_quotePlus kv.1 (fun c hc => ((h kv hkv).1 c hc).1) 38 hm1).2.2
        simp at this
      · rcases List.mem_cons.mp hm1 with he | hm2
        · cases he
        · have := (mem_quotePlus kv.2 (fun c hc => ((h kv hkv).2 c hc).1) 38 hm2).2.2
          simp at this) (by simp)]
    rw [List.filterMap_map]
    apply filterMap_id_of
    intro kv hkv
    exact parseQsl_seg kv (h kv hkv).1 (h kv hkv).2

theorem isSchemeChar_ne58 (c : Nat) (h : isSchemeChar c = true) : c ≠ 58 := by
  simp [isSchemeChar, isAsciiAlnum, isAsciiDigit, isAsciiAlpha] at h
  omega

theorem isSchemeChar_gt32 (c : Nat) (h : isSchemeChar c = true) : 32 < c := by
  simp [isSchemeChar, isAsciiAlnum, isAsciiDigit, isAsciiAlpha] at h
  omega

theorem isAsciiAlpha_ne58 (c : Nat) (h : isAsciiAlpha c = true) : c ≠ 58 := by
  simp [isAsciiAlpha] at h
  omega

theorem isAsciiAlpha_gt32 (c : Nat) (h : isAsciiAlpha c = true) : 32 < c := by
  simp [isAsciiAlpha] at h
  omega

theorem isSchemeChar_lt128 (c : Nat) (h : isSchemeChar c = true) : c < 128 := by
  simp [isSchemeChar, isAsciiAlnum, isAsciiDigit, isAsciiAlpha] at h
  omega

theorem isAsciiAlpha_lt128 (c : Nat) (h : isAsciiAlpha c = true) : c < 128 := by
  simp [isAsciiAlpha] at h
  omega

theorem SchemeOK_ne58 (s : PyStr) (h : SchemeOK s) : ∀ c ∈ s, c ≠ 58 := by
  rcases h with rfl | ⟨c, cs, rfl, ha, hall, hlow⟩
  · simp
  · intro x hx
    rcases List.mem_cons.mp hx with rfl | hx2
    · exact isAsciiAlpha_ne58 x ha
    · exact isSchemeChar_ne58 x (by
        have := List.all_eq_true.mp hall x hx2
        simpa using this)

theorem SchemeOK_gt32 (s : PyStr) (h : SchemeOK s) : ∀ c ∈ s, 32 < c := by
  rcases h with rfl | ⟨c, cs, rfl, ha, hall, hlow⟩
  · simp
  · intro x hx
    rcases List.mem_cons.mp hx with rfl | hx2
    · exact isAsciiAlpha_gt32 x ha
    · exact isSchemeChar_gt32 x (by
        have := List.all_eq_true.mp hall x hx2
        simpa using this)

theorem SchemeOK_lt128 (s : PyStr) (h : SchemeOK s) : ∀ c ∈ s, c < 128 := by
  rcases h with rfl | ⟨c, cs, rfl, ha, hall, hlow⟩
  · simp
  · intro x hx
    rcases List.mem_cons.mp hx with rfl | hx2
    · exact isAsciiAlpha_lt128 x ha
    · exact isSchemeChar_lt128 x (by
        have := List.all_eq_true.mp hall x hx2
        simpa using this)

/-- `urlsplit` recovers a well-formed scheme put in front of `:`. -/
theorem schemeSplit_build (c : Nat) (cs X : PyStr)
    (ha : isAsciiAlpha c = true) (hall : cs.all isSchemeChar = true)
    (hlow : pyLower (c :: cs) = c :: cs) :
    schemeSplit ((c :: cs) ++ 58 :: X) = (c :: cs, X) := by
  have hne : ∀ x ∈ c :: cs, (x != 58) = true := by
    intro x hx
    have : x ≠ 58 := SchemeOK_ne58 (c :: cs) (Or.inr ⟨c, cs, rfl, ha, hall, hlow⟩) x hx
    simpa using this
  have htw : List.takeWhile (fun x => x != 58) ((c :: cs) ++ 58 :: X) = c :: cs := by
    rw [takeWhile_app_all _ _ _ hne]
    simp [List.takeWhile_cons]
  have hdw : List.dropWhile (fun x => x != 58) ((c :: cs) ++ 58 :: X) = 58 :: X := by
    rw [dropWhile_app_all _ _ _ hne]
    simp [List.dropWhile_cons]
  have hacc : schemeAccept ((c :: cs) ++ 58 :: X) = true := by
    unfold schemeAccept
    rw [htw]
    simp [ha, hall, List.length_append]
  unfold schemeSplit
  rw [if_pos hacc, htw, hdw]
  rw [hlow]
  simp

theorem schemeAccept_false_no58 (y : PyStr) (h : ∀ c ∈ y, c ≠ 58) :
    schemeAccept y = false := by
  unfold schemeAccept
  rw [List.takeWhile_eq_self_iff.mpr (by intro a ha; simpa using h a ha)]
  simp

theorem schemeAccept_false_head (c : Nat) (cs : PyStr) (h : isAsciiAlpha c = false) :
    schemeAccept (c :: cs) = false := by
  unfold schemeAccept
  by_cases hc : c = 58
  · subst hc
    rw [List.takeWhile_cons]
    simp
  · rw [List.takeWhile_cons]
    have : (c != 58) = true := by simpa using hc
    rw [this]
    simp [h]

theorem schemeAccept_eq (url : PyStr) :
    schemeAccept url = (decide ((url.takeWhile (fun x => x != 58)).length < url.length) &&
      match url.takeWhile (fun x => x != 58) with
      | [] => false
      | c :: cs => isAsciiAlpha c && cs.all isSchemeChar) := rfl

theorem schemeAccept_false_mem58 (p t X : PyStr)
    (hx : schemeAccept (p ++ t) = false) (h58 : 58 ∈ p) (hX : ∀ c ∈ X, c ≠ 58) :
    schemeAccept (p ++ X) = false := by
  have hfail : ∃ x ∈ p, (x != 58) = false := ⟨58, h58, by simp⟩
  have hlt : (List.takeWhile (fun x => x != 58) p).length < p.length :=
    length_takeWhile_lt_of _ p 58 h58 (by simp)
  rw [schemeAccept_eq] at hx ⊢
  rw [takeWhile_app_stop _ _ _ hfail] at hx ⊢
  have hd1 : ((List.takeWhile (fun x => x != 58) p).length < (p ++ t).length) := by
    simp [List.length_append]
    omega
  have hd2 : ((List.takeWhile (fun x => x != 58) p).length < (p ++ X).length) := by
    simp [List.length_append]
    omega
  rw [decide_eq_true hd1] at hx
  rw [decide_eq_true hd2]
  simpa using hx

theorem pyUrlunsplit_nofrag (scheme netloc path query : PyStr) :
    pyUrlunsplit scheme netloc path query [] =
      (if query ≠ [] then
        (if scheme ≠ [] then
          scheme ++ 58 ::
            (if netloc ≠ [] ∨ (scheme ≠ [] ∧ usesNetloc scheme ∧ path.take 2 ≠ [47, 47]) then
              [47, 47] ++ netloc ++ pathFix path
            else path)
         else
          (if netloc ≠ [] ∨ (scheme ≠ [] ∧ usesNetloc scheme ∧ path.take 2 ≠ [47, 47]) then
            [47, 47] ++ netloc ++ pathFix path
          else path)) ++ 63 :: query
      else
        (if scheme ≠ [] then
          scheme ++ 58 ::
            (if netloc ≠ [] ∨ (scheme ≠ [] ∧ usesNetloc scheme ∧ path.take 2 ≠ [47, 47]) then
              [47, 47] ++ netloc ++ pathFix path
            else path)
         else
          (if netloc ≠ [] ∨ (scheme ≠ [] ∧ usesNetloc scheme ∧ path.take 2 ≠ [47, 47]) then
            [47, 47] ++ netloc ++ pathFix path
          else path))) := by
  unfold pyUrlunsplit pathFix
  simp

theorem pyUrlsplit_eq (url0 : PyStr) :
    pyUrlsplit url0 =
      ⟨(schemeSplit (removeUnsafe (lstripC0 url0))).1,
       (netlocSplit (schemeSplit (removeUnsafe (lstripC0 url0))).2).1,
       (querySplit (fragSplit (netlocSplit (schemeSplit (removeUnsafe (lstripC0 url0))).2).2).1).1,
       (querySplit (fragSplit (netlocSplit (schemeSplit (removeUnsafe (lstripC0 url0))).2).2).1).2,
       (fragSplit (netlocSplit (schemeSplit (removeUnsafe (lstripC0 url0))).2).2).2⟩ := rfl

theorem ascii_not_space (c : Nat) (h1 : 32 < c) (h2 : c < 128) :
    pyIsSpace c = false := by
  simp [pyIsSpace]
  omega

theorem contains_false_of (l : List Nat) (a : Nat) (h : a ∉ l) : l.contains a = false := by
  rw [← Bool.not_eq_true, mem_contains]
  exact h

theorem pathFix_idem (p : PyStr) : pathFix (pathFix p) = pathFix p := by
  cases p with
  | nil => rfl
  | cons c cs =>
    by_cases hc : c = 47
    · subst hc
      simp [pathFix]
    · rw [pathFix, if_pos hc]
      rw [pathFix]
      simp

theorem mem_pathFix (p : PyStr) (c : Nat) (hc : c ∈ pathFix p) : c = 47 ∨ c ∈ p := by
  cases p with
  | nil => simp [pathFix] at hc
  | cons d cs =>
    rw [pathFix] at hc
    by_cases hd : d = 47
    · rw [if_neg (by simp [hd])] at hc
      exact Or.inr hc
    · rw [if_pos hd] at hc
      rcases List.mem_cons.mp hc with rfl | h2
      · exact Or.inl rfl
      · exact Or.inr h2

theorem pathFix_shape (p : PyStr) : pathFix p = [] ∨ ∃ t, pathFix p = 47 :: t := by
  cases p with
  | nil => exact Or.inl rfl
  | cons d cs =>
    rw [pathFix]
    by_cases hd : d = 47
    · subst hd
      exact Or.inr ⟨cs, by simp⟩
    · rw [if_pos hd]
      exact Or.inr ⟨d :: cs, rfl⟩

theorem stripSlash_pathFix (p : PyStr) (h : stripSlash p = p) :
    stripSlash (pathFix p) = pathFix p := by
  cases p with
  | nil => rfl
  | cons d cs =>
    rw [pathFix]
    by_cases hd : d = 47
    · rw [if_neg (by simp [hd])]
      exact h
    · rw [if_pos hd]
      have hlast : (d :: cs).getLast? ≠ some 47 := by
        intro hl
        by_cases he : d :: cs = [47]
        · simp at he
          exact hd he.1
        · unfold stripSlash at h
          rw [if_pos ⟨hl, he⟩] at h
          have hlen := congrArg List.length h
          simp [List.length_dropLast] at hlen
      unfold stripSlash
      rw [if_neg]
      rintro ⟨h1, -⟩
      rw [List.getLast?_cons_cons] at h1
      exact hlast h1

theorem pathFix_take2_ne (p : PyStr) (hp : p.take 2 ≠ [47, 47]) :
    (pathFix p).take 2 ≠ [47, 47] := by
  cases p with
  | nil => simp [pathFix]
  | cons d cs =>
    rw [pathFix]
    by_cases hd : d = 47
    · rw [if_neg (by simp [hd])]
      exact hp
    · rw [if_pos hd]
      cases cs with
      | nil =>
        intro he
        simp at he
        exact hd he
      | cons e es =>
        intro he
        simp at he
        exact hd he

theorem take2_ne_app (p X : PyStr) (hp : p.take 2 ≠ [47, 47]) (hX : 47 ∉ X) :
    (p ++ X).take 2 ≠ [47, 47] := by
  cases p with
  | nil =>
    simp only [List.nil_append]
    intro he
    apply hX
    have : 47 ∈ X.take 2 := by rw [he]; simp
    exact List.take_subset 2 X this
  | cons a as =>
    cases as with
    | nil =>
      simp only [List.cons_append, List.nil_append]
      intro he
      simp [List.take_cons] at he
      apply hX
      have : 47 ∈ X.take 1 := by rw [he.2]; simp
      exact List.take_subset 1 X this
    | cons b bs =>
      simpa using hp

theorem mem_joinAmp (parts : List PyStr) (x : Nat) (hx : x ∈ joinAmp parts) :
    x = 38 ∨ ∃ p ∈ parts, x ∈ p := by
  induction parts with
  | nil => simp [joinAmp] at hx
  | cons p rest ih =>
    cases rest with
    | nil =>
      simp [joinAmp] at hx
      exact Or.inr ⟨p, by simp, hx⟩
    | cons q rest2 =>
      rw [joinAmp] at hx
      rcases List.mem_append.mp hx with h | h
      · exact Or.inr ⟨p, by simp, h⟩
      · rcases List.mem_cons.mp h with rfl | h2
        · exact Or.inl rfl
        · rcases ih h2 with h3 | ⟨r, hr, hxr⟩
          · exact Or.inl h3
          · exact Or.inr ⟨r, by simp [hr], hxr⟩

/-- Characters of an `urlencode` output: printable ASCII, and none of the
characters `urlsplit` or `normalize_url` branch on except `&` and `=`. -/
theorem mem_urlencodePairs (q : List (PyStr × PyStr))
    (hq : ∀ kv ∈ q, (∀ c ∈ kv.1, ValidCp c) ∧ (∀ c ∈ kv.2, ValidCp c))
    (x : Nat) (hx : x ∈ urlencodePairs q) :
    32 < x ∧ x < 128 ∧ x ∉ ([9, 10, 13, 35, 63, 58, 47] : List Nat) := by
  unfold urlencodePairs at hx
  rcases mem_joinAmp _ x hx with rfl | ⟨part, hpart, hxp⟩
  · refine ⟨by omega, by omega, by simp⟩
  · obtain ⟨kv, hkv, he⟩ := List.mem_map.mp hpart
    subst he
    rcases List.mem_append.mp hxp with h | h
    · have hh := mem_quotePlus kv.1 (fun c hc => ((hq kv hkv).1 c hc).1) x h
      refine ⟨hh.1, hh.2.1, ?_⟩
      intro hm
      apply hh.2.2
      simp at hm ⊢
      omega
    · rcases List.mem_cons.mp h with rfl | h2
      · refine ⟨by omega, by omega, by simp⟩
      · have hh := mem_quotePlus kv.2 (fun c hc => ((hq kv hkv).2 c hc).1) x h2
        refine ⟨hh.1, hh.2.1, ?_⟩
        intro hm
        apply hh.2.2
        simp at hm ⊢
        omega

theorem normalize_url_eq (u : PyStr) :
    normalize_url u =
      (if norm u = [] then norm u
       else pyUrlunsplit (pyLower (pyUrlsplit (norm u)).scheme)
         (pyLower (pyUrlsplit (norm u)).netloc)
         (stripSlash (pyUrlsplit (norm u)).path)
         (urlencodePairs ((parseQsl (pyUrlsplit (norm u)).query).filter utmKeep)) []) := rfl

theorem pyUrlsplit_clean (v : PyStr) (h32 : ∀ c ∈ v, 32 < c) :
    pyUrlsplit v =
      ⟨(schemeSplit v).1, (netlocSplit (schemeSplit v).2).1,
       (querySplit (fragSplit (netlocSplit (schemeSplit v).2).2).1).1,
       (querySplit (fragSplit (netlocSplit (schemeSplit v).2).2).1).2,
       (fragSplit (netlocSplit (schemeSplit v).2).2).2⟩ := by
  rw [pyUrlsplit_eq]
  rw [lstripC0_eq_self v (by
    intro c hc
    cases v with
    | nil => cases hc
    | cons d rest =>
      injection hc with he
      exact he ▸ h32 d (by simp))]
  rw [removeUnsafe_eq_self v h32]

theorem schemeSplit_none (y : PyStr) (h : schemeAccept y = false) :
    schemeSplit y = ([], y) := by
  unfold schemeSplit
  rw [if_neg (by simp [h])]

theorem netlocSplit_build (n Z : PyStr) (hn : ∀ c ∈ n, notDelim c = true)
    (hZ : Z = [] ∨ (∃ t, Z = 47 :: t) ∨ (∃ t, Z = 63 :: t)) :
    netlocSplit ([47, 47] ++ n ++ Z) = (n, Z) := by
  unfold netlocSplit
  rw [List.append_assoc]
  have htake : (([47, 47] : PyStr) ++ (n ++ Z)).take 2 = [47, 47] := by simp
  rw [if_pos htake]
  have hdrop : (([47, 47] : PyStr) ++ (n ++ Z)).drop 2 = n ++ Z := by simp
  rw [hdrop]
  have hZtw : Z.takeWhile notDelim = [] := by
    rcases hZ with rfl | ⟨t, rfl⟩ | ⟨t, rfl⟩
    · rfl
    · simp [List.takeWhile_cons, notDelim]
    · simp [List.takeWhile_cons, notDelim]
  rw [takeWhile_app_all _ _ _ hn, dropWhile_app_all _ _ _ hn]
  rw [hZtw, dropWhile_of_takeWhile_nil _ _ hZtw]
  simp

theorem netlocSplit_none (A : PyStr) (h : A.take 2 ≠ [47, 47]) :
    netlocSplit A = ([], A) := by
  unfold netlocSplit
  rw [if_neg h]

theorem fragSplit_none (r : PyStr) (h : (35 : Nat) ∉ r) : fragSplit r = (r, []) := by
  unfold fragSplit
  rw [if_neg (by rw [mem_contains]; exact h)]

theorem querySplit_some (fp qs : PyStr) (h63 : (63 : Nat) ∉ fp) :
    querySplit (fp ++ 63 :: qs) = (fp, qs) := by
  unfold querySplit
  have hc : (fp ++ 63 :: qs).contains 63 = true := by
    rw [mem_contains]
    simp
  rw [if_pos hc]
  have hall : ∀ x ∈ fp, (x != 63) = true := by
    intro x hx
    have hne : x ≠ 63 := by
      intro heq
      exact h63 (heq ▸ hx)
    simpa using hne
  rw [takeWhile_app_all _ _ _ hall, dropWhile_app_all _ _ _ hall]
  simp [List.takeWhile_cons, List.dropWhile_cons]

theorem querySplit_none (fp : PyStr) (h63 : (63 : Nat) ∉ fp) :
    querySplit fp = (fp, []) := by
  unfold querySplit
  rw [if_neg (by rw [mem_contains]; exact h63)]

theorem forall_mem_append2 {P : Nat → Prop} {a b : List Nat}
    (ha : ∀ c ∈ a, P c) (hb : ∀ c ∈ b, P c) : ∀ c ∈ a ++ b, P c := by
  intro c hc
  rcases List.mem_append.mp hc with h | h
  · exact ha c h
  · exact hb c h

theorem forall_mem_cons2 {P : Nat → Prop} {a : Nat} {b : List Nat}
    (ha : P a) (hb : ∀ c ∈ b, P c) : ∀ c ∈ a :: b, P c := by
  intro c hc
  rcases List.mem_cons.mp hc with rfl | h
  · exact ha
  · exact hb c h

/-- Second normalization pass, given the exact split of the assembled URL. -/
theorem normalize_pass2 (s N FP Q V : PyStr)
    (hVns : ∀ c ∈ V, pyIsSpace c = false) (hVne : V ≠ [])
    (hsplit : pyUrlsplit V = ⟨s, N, FP, Q, []⟩)
    (hslow : pyLower s = s) (hNlow : pyLower N = N) (hFPss : stripSlash FP = FP)
    (hQre : urlencodePairs ((parseQsl Q).filter utmKeep) = Q)
    (hre : pyUrlunsplit s N FP Q [] = V) :
    normalize_url V = V := by
  rw [normalize_url_eq]
  have hnorm : norm V = V := pyStrip_eq_self V hVns
  rw [hnorm, if_neg hVne, hsplit]
  show pyUrlunsplit (pyLower s) (pyLower N) (stripSlash FP)
    (urlencodePairs ((parseQsl Q).filter utmKeep)) [] = V
  rw [hslow, hNlow, hFPss, hQre, hre]

/-- The central fixpoint lemma: a URL assembled by `urlunsplit` from
well-formed normalized components is a fixpoint of `normalize_url`. -/
theorem normalize_fix (s n p : PyStr) (q1 : List (PyStr × PyStr))
    (hS : SchemeOK s) (hN : NetlocOK n) (hP : PathOK p)
    (hTake : p.take 2 = [47, 47] → n ≠ [])
    (hQ : ∀ kv ∈ q1, (∀ c ∈ kv.1, ValidCp c) ∧ (∀ c ∈ kv.2, ValidCp c))
    (hF : q1.filter utmKeep = q1)
    (hA : s = [] → n = [] → schemeAccept p = false) :
    normalize_url (pyUrlunsplit s n p (urlencodePairs q1) []) =
      pyUrlunsplit s n p (urlencodePairs q1) [] := by
  have hp32 : ∀ c ∈ p, 32 < c ∧ pyIsSpace c = false := hP.1
  have hp35 : (35 : Nat) ∉ p := hP.2.1
  have hp63 : (63 : Nat) ∉ p := hP.2.2.1
  have hpss : stripSlash p = p := hP.2.2.2
  have hn_delim : ∀ c ∈ n, notDelim c = true := fun c hc => (hN.1 c hc).1
  have hn32 : ∀ c ∈ n, 32 < c ∧ pyIsSpace c = false := fun c hc => (hN.1 c hc).2
  have hnlow : pyLower n = n := hN.2
  have hs32 : ∀ c ∈ s, 32 < c ∧ pyIsSpace c = false := fun c hc =>
    ⟨SchemeOK_gt32 s hS c hc,
     ascii_not_space c (SchemeOK_gt32 s hS c hc) (SchemeOK_lt128 s hS c hc)⟩
  have hslow : pyLower s = s := by
    rcases hS with rfl | ⟨c, cs, rfl, h1, h2, hlow⟩
    · rfl
    · exact hlow
  have hqchars : ∀ x ∈ urlencodePairs q1,
      32 < x ∧ x < 128 ∧ x ∉ ([9, 10, 13, 35, 63, 58, 47] : List Nat) :=
    mem_urlencodePairs q1 hQ
  have hqs32 : ∀ x ∈ urlencodePairs q1, 32 < x ∧ pyIsSpace x = false := fun x hx =>
    ⟨(hqchars x hx).1, ascii_not_space x (hqchars x hx).1 (hqchars x hx).2.1⟩
  have hqs35 : (35 : Nat) ∉ urlencodePairs q1 := fun hx => (hqchars 35 hx).2.2 (by simp)
  have hqs47 : (47 : Nat) ∉ urlencodePairs q1 := fun hx => (hqchars 47 hx).2.2 (by simp)
  have hqs58 : ∀ x ∈ urlencodePairs q1, x ≠ 58 := fun x hx he =>
    (hqchars x hx).2.2 (by rw [he]; simp)
  have hfp32 : ∀ c ∈ pathFix p, 32 < c ∧ pyIsSpace c = false := by
    intro c hc
    rcases mem_pathFix p c hc with rfl | h
    · exact ⟨by omega, by decide⟩
    · exact hp32 c h
  have hfp35 : (35 : Nat) ∉ pathFix p := by
    intro hc
    rcases mem_pathFix p 35 hc with h | h
    · exact absurd h (by decide)
    · exact hp35 h
  have hfp63 : (63 : Nat) ∉ pathFix p := by
    intro hc
    rcases mem_pathFix p 63 hc with h | h
    · exact absurd h (by decide)
    · exact hp63 h
  have hfpss : stripSlash (pathFix p) = pathFix p := stripSlash_pathFix p hpss
  have h44 : ∀ c ∈ ([47, 47] : PyStr), 32 < c ∧ pyIsSpace c = false := by
    intro c hc
    simp at hc
    subst hc
    exact ⟨by omega, by decide⟩
  have hQrt : urlencodePairs ((parseQsl (urlencodePairs q1)).filter utmKeep) =
      urlencodePairs q1 := by
    rw [parseQsl_urlencode q1 hQ, hF]
  have hQrt0 : urlencodePairs ((parseQsl ([] : PyStr)).filter utmKeep) = ([] : PyStr) := rfl
  set Q := urlencodePairs q1 with hQdef
  by_cases hC : n ≠ [] ∨ (s ≠ [] ∧ usesNetloc s ∧ p.take 2 ≠ [47, 47])
  · -- netloc branch of `urlunsplit`
    have hC2 : n ≠ [] ∨ (s ≠ [] ∧ usesNetloc s ∧ (pathFix p).take 2 ≠ [47, 47]) := by
      rcases hC with h | ⟨h1, h2, h3⟩
      · exact Or.inl h
      · exact Or.inr ⟨h1, h2, pathFix_take2_ne p h3⟩
    by_cases hq0 : Q = []
    · -- no query
      have hZ35 : (35 : Nat) ∉ pathFix p := hfp35
      have hns : netlocSplit ([47, 47] ++ n ++ pathFix p) = (n, pathFix p) :=
        netlocSplit_build n (pathFix p) hn_delim (by
          rcases pathFix_shape p with h | ⟨t, ht⟩
          · exact Or.inl h
          · exact Or.inr (Or.inl ⟨t, ht⟩))
      have e3 : (netlocSplit ([47, 47] ++ n ++ pathFix p)).1 = n := by rw [hns]
      have e4 : (netlocSplit ([47, 47] ++ n ++ pathFix p)).2 = pathFix p := by rw [hns]
      have e5a : (fragSplit (pathFix p)).1 = pathFix p := by rw [fragSplit_none _ hZ35]
      have e5b : (fragSplit (pathFix p)).2 = [] := by rw [fragSplit_none _ hZ35]
      have e6a : (querySplit (pathFix p)).1 = pathFix p := by rw [querySplit_none _ hfp63]
      have e6b : (querySplit (pathFix p)).2 = [] := by rw [querySplit_none _ hfp63]
      have hA32 : ∀ c ∈ ([47, 47] : PyStr) ++ n ++ pathFix p, 32 < c ∧ pyIsSpace c = false :=
        forall_mem_append2 (forall_mem_append2 h44 hn32) hfp32
      by_cases hs0 : s = []
      · -- no scheme: V = "//" ++ n ++ pathFix p
        subst hs0
        have hVform : pyUrlunsplit [] n p Q [] = [47, 47] ++ n ++ pathFix p := by
          rw [pyUrlunsplit_nofrag, if_neg (not_not_intro hq0), if_neg (by simp), if_pos hC]
        have hacc : schemeAccept ([47, 47] ++ n ++ pathFix p) = false :=
          schemeAccept_false_head 47 (47 :: (n ++ pathFix p)) (by decide)
        have hss : schemeSplit ([47, 47] ++ n ++ pathFix p) =
            ([], [47, 47] ++ n ++ pathFix p) := schemeSplit_none _ hacc
        have e1 : (schemeSplit ([47, 47] ++ n ++ pathFix p)).1 = [] := by rw [hss]
        have e2 : (schemeSplit ([47, 47] ++ n ++ pathFix p)).2 =
            [47, 47] ++ n ++ pathFix p := by rw [hss]
        have hsplitV : pyUrlsplit ([47, 47] ++ n ++ pathFix p) =
            ⟨[], n, pathFix p, [], []⟩ := by
          rw [pyUrlsplit_clean _ (fun c3 hc3 => (hA32 c3 hc3).1), e2, e1, e4, e3, e5a, e5b, e6a, e6b]
        have hre : pyUrlunsplit [] n (pathFix p) [] [] = [47, 47] ++ n ++ pathFix p := by
          rw [pyUrlunsplit_nofrag, if_neg (by simp), if_neg (by simp), if_pos (by
            rcases hC2 with h | ⟨h1, h2, h3⟩
            · exact Or.inl h
            · exact absurd rfl h1), pathFix_idem]
        rw [hVform]
        exact normalize_pass2 [] n (pathFix p) [] _ (fun c3 hc3 => (hA32 c3 hc3).2) (by simp) hsplitV rfl hnlow
          hfpss hQrt0 hre
      · -- scheme present: V = s ++ ":" ++ "//" ++ n ++ pathFix p
        obtain ⟨c, cs, hscs, hca, hcall, hclow⟩ :
            ∃ c cs, s = c :: cs ∧ isAsciiAlpha c = true ∧ cs.all isSchemeChar = true ∧
              pyLower (c :: cs) = c :: cs := by
          rcases hS with rfl | h
          · exact absurd rfl hs0
          · exact h
        have hV32 : ∀ c2 ∈ s ++ 58 :: ([47, 47] ++ n ++ pathFix p), 32 < c2 ∧ pyIsSpace c2 = false :=
          forall_mem_append2 hs32 (forall_mem_cons2 ⟨by omega, by decide⟩ hA32)
        have hVform : pyUrlunsplit s n p Q [] =
            s ++ 58 :: ([47, 47] ++ n ++ pathFix p) := by
          rw [pyUrlunsplit_nofrag, if_neg (not_not_intro hq0), if_pos hs0, if_pos hC]
        have hss : schemeSplit (s ++ 58 :: ([47, 47] ++ n ++ pathFix p)) =
            (s, [47, 47] ++ n ++ pathFix p) := by
          rw [hscs]
          exact schemeSplit_build c cs _ hca hcall hclow
        have e1 : (schemeSplit (s ++ 58 :: ([47, 47] ++ n ++ pathFix p))).1 = s := by
          rw [hss]
        have e2 : (schemeSplit (s ++ 58 :: ([47, 47] ++ n ++ pathFix p))).2 =
            [47, 47] ++ n ++ pathFix p := by rw [hss]
        have hsplitV : pyUrlsplit (s ++ 58 :: ([47, 47] ++ n ++ pathFix p)) =
            ⟨s, n, pathFix p, [], []⟩ := by
          rw [pyUrlsplit_clean _ (fun c3 hc3 => (hV32 c3 hc3).1), e2, e1, e4, e3, e5a, e5b, e6a, e6b]
        have hre : pyUrlunsplit s n (pathFix p) [] [] =
            s ++ 58 :: ([47, 47] ++ n ++ pathFix p) := by
          rw [pyUrlunsplit_nofrag, if_neg (by simp), if_pos hs0, if_pos hC2, pathFix_idem]
        rw [hVform]
        exact normalize_pass2 s n (pathFix p) [] _ (fun c3 hc3 => (hV32 c3 hc3).2) (by simp [hscs]) hsplitV hslow
          hnlow hfpss hQrt0 hre
    · -- query present: the string after the netloc is `pathFix p ++ "?" ++ Q`
      have hZ35 : (35 : Nat) ∉ pathFix p ++ 63 :: Q := by
        intro hm
        rcases List.mem_append.mp hm with h | h
        · exact hfp35 h
        · rcases List.mem_cons.mp h with h2 | h2
          · exact absurd h2 (by decide)
          · exact hqs35 h2
      have hns : netlocSplit ([47, 47] ++ n ++ (pathFix p ++ 63 :: Q)) =
          (n, pathFix p ++ 63 :: Q) :=
        netlocSplit_build n (pathFix p ++ 63 :: Q) hn_delim (by
          rcases pathFix_shape p with h | ⟨t, ht⟩
          · rw [h]
            exact Or.inr (Or.inr ⟨Q, rfl⟩)
          · rw [ht]
            exact Or.inr (Or.inl ⟨t ++ 63 :: Q, rfl⟩))
      have e3 : (netlocSplit ([47, 47] ++ n ++ (pathFix p ++ 63 :: Q))).1 = n := by
        rw [hns]
      have e4 : (netlocSplit ([47, 47] ++ n ++ (pathFix p ++ 63 :: Q))).2 =
          pathFix p ++ 63 :: Q := by rw [hns]
      have e5a : (fragSplit (pathFix p ++ 63 :: Q)).1 = pathFix p ++ 63 :: Q := by
        rw [fragSplit_none _ hZ35]
      have e5b : (fragSplit (pathFix p ++ 63 :: Q)).2 = [] := by
        rw [fragSplit_none _ hZ35]
      have e6a : (querySplit (pathFix p ++ 63 :: Q)).1 = pathFix p := by
        rw [querySplit_some _ _ hfp63]
      have e6b : (querySplit (pathFix p ++ 63 :: Q)).2 = Q := by
        rw [querySplit_some _ _ hfp63]
      have hA32 : ∀ c ∈ ([47, 47] : PyStr) ++ n ++ (pathFix p ++ 63 :: Q), 32 < c ∧ pyIsSpace c = false :=
        forall_mem_append2 (forall_mem_append2 h44 hn32)
          (forall_mem_append2 hfp32 (forall_mem_cons2 ⟨by omega, by decide⟩ hqs32))
      by_cases hs0 : s = []
      · subst hs0
        have hVform : pyUrlunsplit [] n p Q [] =
            [47, 47] ++ n ++ (pathFix p ++ 63 :: Q) := by
          rw [pyUrlunsplit_nofrag, if_pos hq0, if_neg (by simp), if_pos hC]
          simp
        have hacc : schemeAccept ([47, 47] ++ n ++ (pathFix p ++ 63 :: Q)) = false :=
          schemeAccept_false_head 47 (47 :: (n ++ (pathFix p ++ 63 :: Q))) (by decide)
        have hss : schemeSplit ([47, 47] ++ n ++ (pathFix p ++ 63 :: Q)) =
            ([], [47, 47] ++ n ++ (pathFix p ++ 63 :: Q)) := schemeSplit_none _ hacc
        have e1 : (schemeSplit ([47, 47] ++ n ++ (pathFix p ++ 63 :: Q))).1 = [] := by
          rw [hss]
        have e2 : (schemeSplit ([47, 47] ++ n ++ (pathFix p ++ 63 :: Q))).2 =
            [47, 47] ++ n ++ (pathFix p ++ 63 :: Q) := by rw [hss]
        have hsplitV : pyUrlsplit ([47, 47] ++ n ++ (pathFix p ++ 63 :: Q)) =
            ⟨[], n, pathFix p, Q, []⟩ := by
          rw [pyUrlsplit_clean _ (fun c3 hc3 => (hA32 c3 hc3).1), e2, e1, e4, e3, e5a, e5b, e6a, e6b]
        have hre : pyUrlunsplit [] n (pathFix p) Q [] =
            [47, 47] ++ n ++ (pathFix p ++ 63 :: Q) := by
          rw [pyUrlunsplit_nofrag, if_pos hq0, if_neg (by simp), if_pos (by
            rcases hC2 with h | ⟨h1, h2, h3⟩
            · exact Or.inl h
            · exact absurd rfl h1), pathFix_idem]
          simp
        rw [hVform]
        exact normalize_pass2 [] n (pathFix p) Q _ (fun c3 hc3 => (hA32 c3 hc3).2) (by simp) hsplitV rfl hnlow
          hfpss hQrt hre
      · obtain ⟨c, cs, hscs, hca, hcall, hclow⟩ :
            ∃ c cs, s = c :: cs ∧ isAsciiAlpha c = true ∧ cs.all isSchemeChar = true ∧
              pyLower (c :: cs) = c :: cs := by
          rcases hS with rfl | h
          · exact absurd rfl hs0
          · exact h
        have hV32 : ∀ c2 ∈ s ++ 58 :: ([47, 47] ++ n ++ (pathFix p ++ 63 :: Q)), 32 < c2 ∧ pyIsSpace c2 = false :=
          forall_mem_append2 hs32 (forall_mem_cons2 ⟨by omega, by decide⟩ hA32)
        have hVform : pyUrlunsplit s n p Q [] =
            s ++ 58 :: ([47, 47] ++ n ++ (pathFix p ++ 63 :: Q)) := by
          rw [pyUrlunsplit_nofrag, if_pos hq0, if_pos hs0, if_pos hC]
          simp
        have hss : schemeSplit (s ++ 58 :: ([47, 47] ++ n ++ (pathFix p ++ 63 :: Q))) =
            (s, [47, 47] ++ n ++ (pathFix p ++ 63 :: Q)) := by
          rw [hscs]
          exact schemeSplit_build c cs _ hca hcall hclow
        have e1 : (schemeSplit (s ++ 58 :: ([47, 47] ++ n ++ (pathFix p ++ 63 :: Q)))).1 =
            s := by rw [hss]
        have e2 : (schemeSplit (s ++ 58 :: ([47, 47] ++ n ++ (pathFix p ++ 63 :: Q)))).2 =
            [47, 47] ++ n ++ (pathFix p ++ 63 :: Q) := by rw [hss]
        have hsplitV : pyUrlsplit (s ++ 58 :: ([47, 47] ++ n ++ (pathFix p ++ 63 :: Q))) =
            ⟨s, n, pathFix p, Q, []⟩ := by
          rw [pyUrlsplit_clean _ (fun c3 hc3 => (hV32 c3 hc3).1), e2, e1, e4, e3, e5a, e5b, e6a, e6b]
        have hre : pyUrlunsplit s n (pathFix p) Q [] =
            s ++ 58 :: ([47, 47] ++ n ++ (pathFix p ++ 63 :: Q)) := by
          rw [pyUrlunsplit_nofrag, if_pos hq0, if_pos hs0, if_pos hC2, pathFix_idem]
          simp
        rw [hVform]
        exact normalize_pass2 s n (pathFix p) Q _ (fun c3 hc3 => (hV32 c3 hc3).2) (by simp [hscs]) hsplitV hslow
          hnlow hfpss hQrt hre
  · -- plain branch of `urlunsplit`: the URL is `p` with optional scheme/query
    have hn0 : n = [] := not_not.mp (not_or.mp hC).1
    subst hn0
    have hpt2 : p.take 2 ≠ [47, 47] := fun h => absurd rfl (hTake h)
    by_cases hq0 : Q = []
    · -- no query: the string after the scheme is `p` itself
      have hnsp : netlocSplit p = ([], p) := netlocSplit_none p hpt2
      have e3 : (netlocSplit p).1 = [] := by rw [hnsp]
      have e4 : (netlocSplit p).2 = p := by rw [hnsp]
      have e5a : (fragSplit p).1 = p := by rw [fragSplit_none _ hp35]
      have e5b : (fragSplit p).2 = [] := by rw [fragSplit_none _ hp35]
      have e6a : (querySplit p).1 = p := by rw [querySplit_none _ hp63]
      have e6b : (querySplit p).2 = [] := by rw [querySplit_none _ hp63]
      by_cases hs0 : s = []
      · subst hs0
        have hVform : pyUrlunsplit [] [] p Q [] = p := by
          rw [pyUrlunsplit_nofrag, if_neg (not_not_intro hq0), if_neg (by simp),
            if_neg hC]
        rw [hVform]
        rcases hpe : p with _ | ⟨d, ds⟩
        · rfl
        · rw [← hpe]
          have hap : schemeAccept p = false := hA rfl rfl
          have hss : schemeSplit p = ([], p) := schemeSplit_none p hap
          have e1 : (schemeSplit p).1 = [] := by rw [hss]
          have e2 : (schemeSplit p).2 = p := by rw [hss]
          have hsplitV : pyUrlsplit p = ⟨[], [], p, [], []⟩ := by
            rw [pyUrlsplit_clean _ (fun c3 hc3 => (hp32 c3 hc3).1), e2, e1, e4, e3, e5a, e5b, e6a, e6b]
          have hre : pyUrlunsplit [] [] p [] [] = p := by
            rw [pyUrlunsplit_nofrag, if_neg (by simp), if_neg (by simp), if_neg hC]
          exact normalize_pass2 [] [] p [] p (fun c3 hc3 => (hp32 c3 hc3).2) (by rw [hpe]; simp) hsplitV rfl rfl
            hpss hQrt0 hre
      · obtain ⟨c, cs, hscs, hca, hcall, hclow⟩ :
            ∃ c cs, s = c :: cs ∧ isAsciiAlpha c = true ∧ cs.all isSchemeChar = true ∧
              pyLower (c :: cs) = c :: cs := by
          rcases hS with rfl | h
          · exact absurd rfl hs0
          · exact h
        have hV32 : ∀ c2 ∈ s ++ 58 :: p, 32 < c2 ∧ pyIsSpace c2 = false :=
          forall_mem_append2 hs32 (forall_mem_cons2 ⟨by omega, by decide⟩ hp32)
        have hVform : pyUrlunsplit s [] p Q [] = s ++ 58 :: p := by
          rw [pyUrlunsplit_nofrag, if_neg (not_not_intro hq0), if_pos hs0, if_neg hC]
        have hss : schemeSplit (s ++ 58 :: p) = (s, p) := by
          rw [hscs]
          exact schemeSplit_build c cs _ hca hcall hclow
        have e1 : (schemeSplit (s ++ 58 :: p)).1 = s := by rw [hss]
        have e2 : (schemeSplit (s ++ 58 :: p)).2 = p := by rw [hss]
        have hsplitV : pyUrlsplit (s ++ 58 :: p) = ⟨s, [], p, [], []⟩ := by
          rw [pyUrlsplit_clean _ (fun c3 hc3 => (hV32 c3 hc3).1), e2, e1, e4, e3, e5a, e5b, e6a, e6b]
        have hre : pyUrlunsplit s [] p [] [] = s ++ 58 :: p := by
          rw [pyUrlunsplit_nofrag, if_neg (by simp), if_pos hs0, if_neg hC]
        rw [hVform]
        exact normalize_pass2 s [] p [] _ (fun c3 hc3 => (hV32 c3 hc3).2) (by simp [hscs]) hsplitV hslow rfl
          hpss hQrt0 hre
    · -- query present: the string after the scheme is `p ++ "?" ++ Q`
      have hZ35 : (35 : Nat) ∉ p ++ 63 :: Q := by
        intro hm
        rcases List.mem_append.mp hm with h | h
        · exact hp35 h
        · rcases List.mem_cons.mp h with h2 | h2
          · exact absurd h2 (by decide)
          · exact hqs35 h2
      have hZtake : (p ++ 63 :: Q).take 2 ≠ [47, 47] := by
        apply take2_ne_app p (63 :: Q) hpt2
        intro hm
        rcases List.mem_cons.mp hm with h2 | h2
        · exact absurd h2 (by decide)
        · exact hqs47 h2
      have hnsp : netlocSplit (p ++ 63 :: Q) = ([], p ++ 63 :: Q) :=
        netlocSplit_none _ hZtake
      have e3 : (netlocSplit (p ++ 63 :: Q)).1 = [] := by rw [hnsp]
      have e4 : (netlocSplit (p ++ 63 :: Q)).2 = p ++ 63 :: Q := by rw [hnsp]
      have e5a : (fragSplit (p ++ 63 :: Q)).1 = p ++ 63 :: Q := by
        rw [fragSplit_none _ hZ35]
      have e5b : (fragSplit (p ++ 63 :: Q)).2 = [] := by rw [fragSplit_none _ hZ35]
      have e6a : (querySplit (p ++ 63 :: Q)).1 = p := by rw [querySplit_some _ _ hp63]
      have e6b : (querySplit (p ++ 63 :: Q)).2 = Q := by rw [querySplit_some _ _ hp63]
      have hA32 : ∀ c ∈ p ++ 63 :: Q, 32 < c ∧ pyIsSpace c = false :=
        forall_mem_append2 hp32 (forall_mem_cons2 ⟨by omega, by decide⟩ hqs32)
      by_cases hs0 : s = []
      · subst hs0
        have hVform : pyUrlunsplit [] [] p Q [] = p ++ 63 :: Q := by
          rw [pyUrlunsplit_nofrag, if_pos hq0, if_neg (by simp), if_neg hC]
        have hap : schemeAccept p = false := hA rfl rfl
        have haccV : schemeAccept (p ++ 63 :: Q) = false := by
          by_cases h58 : (58 : Nat) ∈ p
          · exact schemeAccept_false_mem58 p [] (63 :: Q) (by rwa [List.append_nil])
              h58 (forall_mem_cons2 (by omega) hqs58)
          · apply schemeAccept_false_no58
            intro c2 hc2
            rcases List.mem_append.mp hc2 with h | h
            · intro he
              exact h58 (he ▸ h)
            · exact forall_mem_cons2 (by omega) hqs58 c2 h
        have hss : schemeSplit (p ++ 63 :: Q) = ([], p ++ 63 :: Q) :=
          schemeSplit_none _ haccV
        have e1 : (schemeSplit (p ++ 63 :: Q)).1 = [] := by rw [hss]
        have e2 : (schemeSplit (p ++ 63 :: Q)).2 = p ++ 63 :: Q := by rw [hss]
        have hsplitV : pyUrlsplit (p ++ 63 :: Q) = ⟨[], [], p, Q, []⟩ := by
          rw [pyUrlsplit_clean _ (fun c3 hc3 => (hA32 c3 hc3).1), e2, e1, e4, e3, e5a, e5b, e6a, e6b]
        have hre : pyUrlunsplit [] [] p Q [] = p ++ 63 :: Q := by
          rw [pyUrlunsplit_nofrag, if_pos hq0, if_neg (by simp), if_neg hC]
        rw [hVform]
        exact normalize_pass2 [] [] p Q _ (fun c3 hc3 => (hA32 c3 hc3).2) (by simp) hsplitV rfl rfl hpss hQrt hre
      · obtain ⟨c, cs, hscs, hca, hcall, hclow⟩ :
            ∃ c cs, s = c :: cs ∧ isAsciiAlpha c = true ∧ cs.all isSchemeChar = true ∧
              pyLower (c :: cs) = c :: cs := by
          rcases hS with rfl | h
          · exact absurd rfl hs0
          · exact h
        have hV32 : ∀ c2 ∈ s ++ 58 :: (p ++ 63 :: Q), 32 < c2 ∧ pyIsSpace c2 = false :=
          forall_mem_append2 hs32 (forall_mem_cons2 ⟨by omega, by decide⟩ hA32)
        have hVform : pyUrlunsplit s [] p Q [] = s ++ 58 :: (p ++ 63 :: Q) := by
          rw [pyUrlunsplit_nofrag, if_pos hq0, if_pos hs0, if_neg hC]
          simp
        have hss : schemeSplit (s ++ 58 :: (p ++ 63 :: Q)) = (s, p ++ 63 :: Q) := by
          rw [hscs]
          exact schemeSplit_build c cs _ hca hcall hclow
        have e1 : (schemeSplit (s ++ 58 :: (p ++ 63 :: Q))).1 = s := by rw [hss]
        have e2 : (schemeSplit (s ++ 58 :: (p ++ 63 :: Q))).2 = p ++ 63 :: Q := by
          rw [hss]
        have hsplitV : pyUrlsplit (s ++ 58 :: (p ++ 63 :: Q)) = ⟨s, [], p, Q, []⟩ := by
          rw [pyUrlsplit_clean _ (fun c3 hc3 => (hV32 c3 hc3).1), e2, e1, e4, e3, e5a, e5b, e6a, e6b]
        have hre : pyUrlunsplit s [] p Q [] = s ++ 58 :: (p ++ 63 :: Q) := by
          rw [pyUrlunsplit_nofrag, if_pos hq0, if_pos hs0, if_neg hC]
          simp
        rw [hVform]
        exact normalize_pass2 s [] p Q _ (fun c3 hc3 => (hV32 c3 hc3).2) (by simp [hscs]) hsplitV hslow rfl
          hpss hQrt hre

/-! ## Facts about the components the first pass extracts -/

theorem lowerChar_alpha (c : Nat) (h : isAsciiAlpha c = true) :
    isAsciiAlpha (lowerChar c) = true := by
  rcases lowerChar_eq_or0 c with he | ⟨h1, h2, he⟩ <;> rw [he] <;>
    simp_all [isAsciiAlpha] <;> omega

theorem lowerChar_gt32 (c : Nat) (h : 32 < c) : 32 < lowerChar c := by
  rcases lowerChar_eq_or0 c with he | ⟨h1, h2, he⟩ <;> rw [he] <;> omega

theorem mem_pyLower (s : PyStr) (x : Nat) (hx : x ∈ pyLower s) :
    ∃ c ∈ s, x = lowerChar c := by
  obtain ⟨c, hc, he⟩ := List.mem_map.mp hx
  exact ⟨c, hc, he.symm⟩

theorem mem_pyStrip (s : PyStr) (x : Nat) (hx : x ∈ pyStrip s) : x ∈ s := by
  unfold pyStrip at hx
  rw [List.mem_reverse] at hx
  have h1 := List.dropWhile_subset (l := (s.dropWhile pyIsSpace).reverse) pyIsSpace hx
  rw [List.mem_reverse] at h1
  exact List.dropWhile_subset pyIsSpace h1

theorem schemeSplit_snd_subset (y : PyStr) : (schemeSplit y).2 ⊆ y := by
  unfold schemeSplit
  by_cases h : schemeAccept y = true
  · rw [if_pos h]
    intro x hx
    exact List.dropWhile_subset _ (List.tail_subset _ hx)
  · rw [if_neg h]
    exact fun x hx => hx

theorem netlocSplit_fst_delim (r : PyStr) :
    ∀ c ∈ (netlocSplit r).1, notDelim c = true := by
  unfold netlocSplit
  by_cases h : r.take 2 = [47, 47]
  · rw [if_pos h]
    intro c hc
    exact List.mem_takeWhile_imp hc
  · rw [if_neg h]
    intro c hc
    simp at hc

theorem netlocSplit_fst_subset (r : PyStr) : (netlocSplit r).1 ⊆ r := by
  unfold netlocSplit
  by_cases h : r.take 2 = [47, 47]
  · rw [if_pos h]
    intro x hx
    exact List.drop_subset 2 r (List.takeWhile_subset _ hx)
  · rw [if_neg h]
    intro x hx
    simp at hx

theorem netlocSplit_snd_subset (r : PyStr) : (netlocSplit r).2 ⊆ r := by
  unfold netlocSplit
  by_cases h : r.take 2 = [47, 47]
  · rw [if_pos h]
    intro x hx
    exact List.drop_subset 2 r (List.dropWhile_subset _ hx)
  · rw [if_neg h]
    exact fun x hx => hx

theorem fragSplit_fst_subset (r : PyStr) : (fragSplit r).1 ⊆ r := by
  unfold fragSplit
  by_cases h : r.contains 35 = true
  · rw [if_pos h]
    exact List.takeWhile_subset _
  · rw [if_neg h]
    exact fun x hx => hx

theorem querySplit_fst_subset (r : PyStr) : (querySplit r).1 ⊆ r := by
  unfold querySplit
  by_cases h : r.contains 63 = true
  · rw [if_pos h]
    exact List.takeWhile_subset _
  · rw [if_neg h]
    exact fun x hx => hx

theorem querySplit_snd_subset (r : PyStr) : (querySplit r).2 ⊆ r := by
  unfold querySplit
  by_cases h : r.contains 63 = true
  · rw [if_pos h]
    intro x hx
    exact List.dropWhile_subset _ (List.tail_subset _ hx)
  · rw [if_neg h]
    intro x hx
    simp at hx

theorem stripSlash_subset (p : PyStr) : stripSlash p ⊆ p := by
  unfold stripSlash
  by_cases h : p.getLast? = some 47 ∧ p ≠ [47]
  · rw [if_pos h]
    exact (List.dropLast_prefix p).subset
  · rw [if_neg h]
    exact fun x hx => hx

theorem fragSplit_fst_no35 (r : PyStr) : (35 : Nat) ∉ (fragSplit r).1 := by
  unfold fragSplit
  by_cases h : r.contains 35 = true
  · rw [if_pos h]
    intro hm
    have := List.mem_takeWhile_imp hm
    simp at this
  · rw [if_neg h]
    intro hm
    exact h ((mem_contains r 35).mpr hm)

theorem querySplit_fst_no63 (r : PyStr) : (63 : Nat) ∉ (querySplit r).1 := by
  unfold querySplit
  by_cases h : r.contains 63 = true
  · rw [if_pos h]
    intro hm
    have := List.mem_takeWhile_imp hm
    simp at this
  · rw [if_neg h]
    intro hm
    exact h ((mem_contains r 63).mpr hm)

theorem fragSplit_fst_isPre (r : PyStr) : (fragSplit r).1 <+: r := by
  unfold fragSplit
  by_cases h : r.contains 35 = true
  · rw [if_pos h]
    exact List.takeWhile_prefix _
  · rw [if_neg h]

theorem querySplit_fst_isPre (r : PyStr) : (querySplit r).1 <+: r := by
  unfold querySplit
  by_cases h : r.contains 63 = true
  · rw [if_pos h]
    exact List.takeWhile_prefix _
  · rw [if_neg h]

theorem stripSlash_isPre (p : PyStr) : stripSlash p <+: p := by
  unfold stripSlash
  by_cases h : p.getLast? = some 47 ∧ p ≠ [47]
  · rw [if_pos h]
    exact List.dropLast_prefix p
  · rw [if_neg h]

theorem schemeAccept_split_ne (y : PyStr) (hacc : schemeAccept y = true) :
    (schemeSplit y).1 ≠ [] := by
  unfold schemeSplit
  rw [if_pos hacc]
  rw [schemeAccept_eq] at hacc
  obtain ⟨h1, h2⟩ := Bool.and_eq_true_iff.mp hacc
  cases hpre : y.takeWhile (fun x => x != 58) with
  | nil =>
    rw [hpre] at h2
    cases h2
  | cons c cs =>
    simp [pyLower]

theorem fragSplit_fst_cons_ne35 (c : Nat) (t : PyStr) (hc : c ≠ 35) :
    ∃ X, (fragSplit (c :: t)).1 = c :: X := by
  unfold fragSplit
  by_cases h : (c :: t).contains 35 = true
  · rw [if_pos h]
    refine ⟨t.takeWhile (· != 35), ?_⟩
    rw [List.takeWhile_cons]
    simp [hc]
  · rw [if_neg h]
    exact ⟨t, rfl⟩

theorem fragSplit_fst_cons35 (t : PyStr) : (fragSplit (35 :: t)).1 = [] := by
  unfold fragSplit
  rw [if_pos (by rw [mem_contains]; simp)]
  rw [List.takeWhile_cons]
  simp

theorem querySplit_fst_cons_ne63 (c : Nat) (t : PyStr) (hc : c ≠ 63) :
    ∃ X, (querySplit (c :: t)).1 = c :: X := by
  unfold querySplit
  by_cases h : (c :: t).contains 63 = true
  · rw [if_pos h]
    refine ⟨t.takeWhile (· != 63), ?_⟩
    rw [List.takeWhile_cons]
    simp [hc]
  · rw [if_neg h]
    exact ⟨t, rfl⟩

theorem querySplit_fst_cons63 (t : PyStr) : (querySplit (63 :: t)).1 = [] := by
  unfold querySplit
  rw [if_pos (by rw [mem_contains]; simp)]
  rw [List.takeWhile_cons]
  simp

theorem stripSlash_cons47 (t : PyStr) : ∃ w, stripSlash (47 :: t) = 47 :: w := by
  unfold stripSlash
  by_cases h : (47 :: t).getLast? = some 47 ∧ 47 :: t ≠ [47]
  · rw [if_pos h]
    cases t with
    | nil => exact absurd rfl h.2
    | cons b bs => exact ⟨(b :: bs).dropLast, by simp⟩
  · rw [if_neg h]
    exact ⟨t, rfl⟩

/-- Every pair produced by `parse_qsl` on a string of valid scalars consists
of strings of valid scalars. -/
theorem parseQsl_valid (qs : PyStr) (hqs : ∀ c ∈ qs, ValidCp c) :
    ∀ kv ∈ parseQsl qs, (∀ c ∈ kv.1, ValidCp c) ∧ (∀ c ∈ kv.2, ValidCp c) := by
  intro kv hkv
  unfold parseQsl at hkv
  obtain ⟨seg, hseg, hf⟩ := List.mem_filterMap.mp hkv
  have hsub : ∀ c ∈ seg, c ∈ qs := by
    by_cases hq0 : qs = []
    · rw [if_pos hq0] at hseg
      simp at hseg
    · rw [if_neg hq0] at hseg
      exact mem_splitSep 38 qs seg hseg
  have hsegv : ∀ c ∈ seg, ValidCp c := fun c hc => hqs c (hsub c hc)
  by_cases h0 : seg = []
  · rw [if_pos h0] at hf
    cases hf
  · rw [if_neg h0] at hf
    by_cases h61 : seg.contains 61 = true
    · rw [if_pos h61] at hf
      injection hf with hf
      subst hf
      constructor
      · exact mem_unqPlus_valid _ (fun c hc =>
          hsegv c (List.takeWhile_subset _ hc))
      · exact mem_unqPlus_valid _ (fun c hc =>
          hsegv c (List.dropWhile_subset _ (List.tail_subset _ hc)))
    · rw [if_neg h61] at hf
      injection hf with hf
      subst hf
      constructor
      · exact mem_unqPlus_valid _ hsegv
      · exact mem_unqPlus_valid _ (by intro c hc; cases hc)

set_option maxHeartbeats 1000000 in
/-- C3 (amended): `normalize_url` is idempotent on every input made of valid
Unicode scalar values whose stripped form has no control characters and no
whitespace — neither ASCII nor the Unicode spaces `str.strip()` removes —
whose path keeps no removable trailing slash after one strip (no `//` tail),
and whose path does not begin with `//` when the netloc is empty. -/
theorem C3_amended (u : PyStr)
    (hv : ∀ c ∈ u, ValidCp c)
    (hw : ∀ c ∈ norm u, 32 < c ∧ pyIsSpace c = false)
    (hpath : stripSlash (stripSlash (pyUrlsplit (norm u)).path) =
      stripSlash (pyUrlsplit (norm u)).path)
    (hnet : (pyUrlsplit (norm u)).netloc = [] →
      (stripSlash (pyUrlsplit (norm u)).path).take 2 ≠ [47, 47]) :
    normalize_url (normalize_url u) = normalize_url u := by
  by_cases hu0 : norm u = []
  · rw [normalize_url_eq u, if_pos hu0, hu0]
    decide
  · rw [normalize_url_eq u, if_neg hu0]
    have hsplit_u := pyUrlsplit_clean (norm u) (fun c hc => (hw c hc).1)
    have hfs : (pyUrlsplit (norm u)).scheme = (schemeSplit (norm u)).1 := by rw [hsplit_u]
    have hfn : (pyUrlsplit (norm u)).netloc =
        (netlocSplit (schemeSplit (norm u)).2).1 := by rw [hsplit_u]
    have hfp : (pyUrlsplit (norm u)).path =
        (querySplit (fragSplit (netlocSplit (schemeSplit (norm u)).2).2).1).1 := by
      rw [hsplit_u]
    have hfq : (pyUrlsplit (norm u)).query =
        (querySplit (fragSplit (netlocSplit (schemeSplit (norm u)).2).2).1).2 := by
      rw [hsplit_u]
    rw [hfp] at hpath
    rw [hfn, hfp] at hnet
    rw [hfs, hfn, hfp, hfq]
    refine normalize_fix _ _ _ _ ?hS ?hN ?hP ?hTake ?hQ ?hF ?hA
    case hS =>
      by_cases hacc : schemeAccept (norm u) = true
      · have hss : schemeSplit (norm u) =
            (pyLower ((norm u).takeWhile (· != 58)),
             ((norm u).dropWhile (· != 58)).tail) := by
          unfold schemeSplit
          rw [if_pos hacc]
        rw [schemeAccept_eq] at hacc
        obtain ⟨hlen, hmatch⟩ := Bool.and_eq_true_iff.mp hacc
        cases hpre : (norm u).takeWhile (fun x => x != 58) with
        | nil =>
          rw [hpre] at hmatch
          cases hmatch
        | cons c0 cs0 =>
          rw [hpre] at hmatch hss
          obtain ⟨hca, hcall⟩ := Bool.and_eq_true_iff.mp hmatch
          right
          refine ⟨lowerChar c0, pyLower cs0, ?_, lowerChar_alpha c0 hca, ?_, ?_⟩
          · rw [hss]
            show pyLower (pyLower (c0 :: cs0)) = lowerChar c0 :: pyLower cs0
            rw [pyLower_idem]
            rfl
          · rw [List.all_eq_true]
            intro x hx
            obtain ⟨c, hc, he⟩ := mem_pyLower cs0 x hx
            subst he
            exact lowerChar_schemeChar c (by
              have := List.all_eq_true.mp hcall c hc
              simpa using this)
          · show pyLower (pyLower (c0 :: cs0)) = pyLower (c0 :: cs0)
            exact pyLower_idem _
      · have hss : schemeSplit (norm u) = ([], norm u) :=
          schemeSplit_none _ (Bool.eq_false_iff.mpr hacc)
        left
        rw [hss]
        rfl
    case hN =>
      constructor
      · intro x hx
        obtain ⟨c, hc, he⟩ := mem_pyLower _ x hx
        subst he
        refine ⟨lowerChar_notDelim c (netlocSplit_fst_delim _ c hc), ?_, ?_⟩
        · exact lowerChar_gt32 c ((hw c
            (schemeSplit_snd_subset (norm u) (netlocSplit_fst_subset _ hc))).1)
        · exact lowerChar_not_space c ((hw c
            (schemeSplit_snd_subset (norm u) (netlocSplit_fst_subset _ hc))).2)
      · exact pyLower_idem _
    case hP =>
      refine ⟨?_, ?_, ?_, hpath⟩
      · intro c hc
        exact hw c (schemeSplit_snd_subset (norm u) (netlocSplit_snd_subset _
          (fragSplit_fst_subset _ (querySplit_fst_subset _
            (stripSlash_subset _ hc)))))
      · intro hm
        exact fragSplit_fst_no35 _ (querySplit_fst_subset _ (stripSlash_subset _ hm))
      · intro hm
        exact querySplit_fst_no63 _ (stripSlash_subset _ hm)
    case hTake =>
      intro h hN0
      exact hnet (List.map_eq_nil_iff.mp hN0) h
    case hQ =>
      intro kv hkv
      refine parseQsl_valid _ ?_ kv (List.mem_of_mem_filter hkv)
      intro c hc
      exact hv c (mem_pyStrip u c (schemeSplit_snd_subset (norm u)
        (netlocSplit_snd_subset _ (fragSplit_fst_subset _
          (querySplit_snd_subset _ hc)))))
    case hF =>
      exact List.filter_eq_self.mpr (fun kv hkv => List.of_mem_filter hkv)
    case hA =>
      intro hS0 hN0
      have hsch0 : (schemeSplit (norm u)).1 = [] := List.map_eq_nil_iff.mp hS0
      have hnet0 : (netlocSplit (schemeSplit (norm u)).2).1 = [] :=
        List.map_eq_nil_iff.mp hN0
      have hacc_u : schemeAccept (norm u) = false := by
        by_cases h : schemeAccept (norm u) = true
        · exact absurd hsch0 (schemeAccept_split_ne _ h)
        · exact Bool.eq_false_iff.mpr h
      have hr1 : (schemeSplit (norm u)).2 = norm u := by
        rw [schemeSplit_none _ hacc_u]
      by_cases htk : (norm u).take 2 = [47, 47]
      · have hnl : netlocSplit (norm u) =
            (((norm u).drop 2).takeWhile notDelim,
             ((norm u).drop 2).dropWhile notDelim) := by
          unfold netlocSplit
          rw [if_pos htk]
        have htw0 : ((norm u).drop 2).takeWhile notDelim = [] := by
          rw [hr1, hnl] at hnet0
          exact hnet0
        have hr2 : (netlocSplit (schemeSplit (norm u)).2).2 = (norm u).drop 2 := by
          rw [hr1, hnl]
          exact dropWhile_of_takeWhile_nil _ _ htw0
        have hshape : (norm u).drop 2 = [] ∨ (∃ t, (norm u).drop 2 = 47 :: t) ∨
            (∃ t, (norm u).drop 2 = 63 :: t) ∨ (∃ t, (norm u).drop 2 = 35 :: t) := by
          cases hd : (norm u).drop 2 with
          | nil => exact Or.inl rfl
          | cons c t =>
            rw [hd, List.takeWhile_cons] at htw0
            by_cases hc : notDelim c = true
            · rw [hc] at htw0
              simp at htw0
            · have hcf : notDelim c = false := Bool.eq_false_iff.mpr hc
              simp [notDelim] at hcf
              rcases eq_or_ne c 47 with h | h47
              · exact Or.inr (Or.inl ⟨t, by rw [h]⟩)
              rcases eq_or_ne c 63 with h | h63
              · exact Or.inr (Or.inr (Or.inl ⟨t, by rw [h]⟩))
              exact Or.inr (Or.inr (Or.inr ⟨t, by rw [hcf h47 h63]⟩))
        have hpshape : (querySplit (fragSplit ((norm u).drop 2)).1).1 = [] ∨
            ∃ t, (querySplit (fragSplit ((norm u).drop 2)).1).1 = 47 :: t := by
          rcases hshape with hd | ⟨t, hd⟩ | ⟨t, hd⟩ | ⟨t, hd⟩ <;> rw [hd]
          · left
            rfl
          · obtain ⟨X, hX⟩ := fragSplit_fst_cons_ne35 47 t (by decide)
            rw [hX]
            obtain ⟨Y, hY⟩ := querySplit_fst_cons_ne63 47 X (by decide)
            rw [hY]
            exact Or.inr ⟨Y, rfl⟩
          · obtain ⟨X, hX⟩ := fragSplit_fst_cons_ne35 63 t (by decide)
            rw [hX, querySplit_fst_cons63]
            left
            rfl
          · rw [fragSplit_fst_cons35]
            left
            rfl
        rw [hr2]
        rcases hpshape with h0 | ⟨t, h0⟩
        · rw [h0]
          decide
        · rw [h0]
          obtain ⟨w, hw2⟩ := stripSlash_cons47 t
          rw [hw2]
          exact schemeAccept_false_head 47 w (by decide)
      · have hnl : netlocSplit (norm u) = ([], norm u) := netlocSplit_none _ htk
        have hr2 : (netlocSplit (schemeSplit (norm u)).2).2 = norm u := by
          rw [hr1, hnl]
        rw [hr2]
        have hpre : stripSlash (querySplit (fragSplit (norm u)).1).1 <+: norm u :=
          (stripSlash_isPre _).trans ((querySplit_fst_isPre _).trans
            (fragSplit_fst_isPre _))
        obtain ⟨t, ht⟩ := hpre
        by_cases h58 : (58 : Nat) ∈ stripSlash (querySplit (fragSplit (norm u)).1).1
        · have hres := schemeAccept_false_mem58
            (stripSlash (querySplit (fragSplit (norm u)).1).1) t []
            (by rw [ht]; exact hacc_u) h58 (by intro c hc; cases hc)
          rwa [List.append_nil] at hres
        · apply schemeAccept_false_no58
          intro c hc heq
          exact h58 (heq ▸ hc)

set_option maxRecDepth 100000 in
/-- Witness for the amended C3 at a concrete URL satisfying all hypotheses. -/
theorem C3_amended_witness :
    (∀ c ∈ py "HTTPS://Example.COM/a/?b=2&utm_source=x#frag", ValidCp c) ∧
    (∀ c ∈ norm (py "HTTPS://Example.COM/a/?b=2&utm_source=x#frag"),
      32 < c ∧ pyIsSpace c = false) ∧
    stripSlash (stripSlash
        (pyUrlsplit (norm (py "HTTPS://Example.COM/a/?b=2&utm_source=x#frag"))).path) =
      stripSlash
        (pyUrlsplit (norm (py "HTTPS://Example.COM/a/?b=2&utm_source=x#frag"))).path ∧
    ((pyUrlsplit (norm (py "HTTPS://Example.COM/a/?b=2&utm_source=x#frag"))).netloc = [] →
      (stripSlash
          (pyUrlsplit (norm (py "HTTPS://Example.COM/a/?b=2&utm_source=x#frag"))).path).take
          2 ≠ [47, 47]) ∧
    normalize_url (normalize_url (py "HTTPS://Example.COM/a/?b=2&utm_source=x#frag")) =
      normalize_url (py "HTTPS://Example.COM/a/?b=2&utm_source=x#frag") :=
  ⟨by decide, by decide, by decide, by decide,
   C3_amended _ (by decide) (by decide) (by decide) (by decide)⟩

end TDN
